import Mathlib

/-!
Verification development for the zipfai-mcp-server core (src/src/api.ts):
the asynchronous search-job poller, URL normalization and cross-workflow
correlation, signal scoring, change-summary derivation and the workflow
updates digest aggregation.

The TypeScript is embedded shallowly:
* machine numbers that the code only adds, subtracts, compares and clamps
  are modelled as Int; the change-rate percentage, which may be fractional,
  is modelled as Rat;
* ISO-8601 timestamp strings are modelled by their epoch-millisecond value
  (the code only ever compares them through new Date(x).getTime());
* fallible remote calls are environment functions returning Except;
* the WHATWG URL platform library, on which normalizeUrl relies, is
  modelled by an explicit parser/serializer over lists of characters,
  restricted to the behaviors the code exercises (scheme detection,
  authority/path/query/fragment splitting, the protocol-setter rule that
  a non-special scheme is never changed to https, search-parameter
  re-serialization, and opaque-path URLs whose pathname cannot be set).
  Percent-encoding, dot-segment removal, host case folding and default
  port elision are not modelled; inputs in concrete theorems avoid them.
-/

namespace Zipfai

/-! ## Generic list helpers -/

theorem takeWhile_all {α} (p : α → Bool) :
    ∀ (as : List α), (∀ a ∈ as, p a = true) → as.takeWhile p = as
  | [], _ => rfl
  | x :: xs, h => by
      rw [List.takeWhile_cons_of_pos (h x (by simp)),
        takeWhile_all p xs fun a ha => h a (by simp [ha])]

theorem dropWhile_all {α} (p : α → Bool) :
    ∀ (as : List α), (∀ a ∈ as, p a = true) → as.dropWhile p = []
  | [], _ => rfl
  | x :: xs, h => by
      rw [List.dropWhile_cons_of_pos (h x (by simp)),
        dropWhile_all p xs fun a ha => h a (by simp [ha])]

theorem takeWhile_append_cons {α} (p : α → Bool) :
    ∀ (as : List α) (b : α) (bs : List α),
      (∀ a ∈ as, p a = true) → p b = false → (as ++ b :: bs).takeWhile p = as
  | [], b, bs, _, hb => by
      show (b :: bs).takeWhile p = []
      exact List.takeWhile_cons_of_neg (by simp [hb])
  | x :: xs, b, bs, ha, hb => by
      rw [List.cons_append, List.takeWhile_cons_of_pos (ha x (by simp)),
        takeWhile_append_cons p xs b bs (fun a h => ha a (by simp [h])) hb]

theorem dropWhile_append_cons {α} (p : α → Bool) :
    ∀ (as : List α) (b : α) (bs : List α),
      (∀ a ∈ as, p a = true) → p b = false → (as ++ b :: bs).dropWhile p = b :: bs
  | [], b, bs, _, hb => by
      show (b :: bs).dropWhile p = b :: bs
      exact List.dropWhile_cons_of_neg (by simp [hb])
  | x :: xs, b, bs, ha, hb => by
      rw [List.cons_append, List.dropWhile_cons_of_pos (ha x (by simp)),
        dropWhile_append_cons p xs b bs (fun a h => ha a (by simp [h])) hb]

theorem mem_takeWhile {α} (p : α → Bool) :
    ∀ (as : List α) (a : α), a ∈ as.takeWhile p → p a = true ∧ a ∈ as
  | [], a, h => by simp [List.takeWhile] at h
  | x :: xs, a, h => by
      cases hx : p x with
      | true =>
          rw [List.takeWhile_cons_of_pos hx] at h
          rcases List.mem_cons.mp h with h | h
          · subst h; exact ⟨hx, by simp⟩
          · rcases mem_takeWhile p xs a h with ⟨h1, h2⟩
            exact ⟨h1, by simp [h2]⟩
      | false =>
          rw [List.takeWhile_cons_of_neg (by simp [hx])] at h
          simp at h

theorem dropWhile_cons_head {α} (p : α → Bool) :
    ∀ (as : List α) (b : α) (bs : List α), as.dropWhile p = b :: bs → p b = false
  | [], b, bs, h => by simp [List.dropWhile] at h
  | x :: xs, b, bs, h => by
      cases hx : p x with
      | true =>
          rw [List.dropWhile_cons_of_pos hx] at h
          exact dropWhile_cons_head p xs b bs h
      | false =>
          rw [List.dropWhile_cons_of_neg (by simp [hx])] at h
          cases h; exact hx

theorem mem_dropLast {α} (as : List α) (a : α) (h : a ∈ as.dropLast) : a ∈ as := by
  have := List.dropLast_sublist (l := as)
  exact this.subset h

/-! ## URL model

The record mirrors a parsed WHATWG URL as far as normalizeUrl observes it.
cannotBeBase marks a URL with an opaque path (no authority, e.g. mailto:),
whose pathname setter is a no-op. -/

structure QPair where
  name : List Char
  value : List Char
deriving DecidableEq

structure UrlRec where
  scheme : List Char
  cannotBeBase : Bool
  host : List Char
  port : Option (List Char)
  path : List Char
  query : Option (List QPair)
  fragment : Option (List Char)
deriving DecidableEq

def isSchemeChar (c : Char) : Bool :=
  c.isAlphanum || c = '+' || c = '-' || c = '.'

def schemeOk (s : List Char) : Bool :=
  match s with
  | [] => false
  | c :: _ => c.isAlpha && s.all isSchemeChar

def specialSchemes : List (List Char) :=
  ["http".toList, "https".toList, "ws".toList, "wss".toList, "ftp".toList, "file".toList]

def fileL : List Char := "file".toList
def httpsL : List Char := "https".toList

def notColon (c : Char) : Bool := decide (c ≠ ':')
def authChar (c : Char) : Bool := decide (c ≠ '/' ∧ c ≠ '?' ∧ c ≠ '#')
def pqChar (c : Char) : Bool := decide (c ≠ '?' ∧ c ≠ '#')
def notHash (c : Char) : Bool := decide (c ≠ '#')
def notEq (c : Char) : Bool := decide (c ≠ '=')
def hostChar (c : Char) : Bool := decide (c ≠ ':' ∧ c ≠ '/' ∧ c ≠ '?' ∧ c ≠ '#')
def qnameChar (c : Char) : Bool := decide (c ≠ '=' ∧ c ≠ '&' ∧ c ≠ '#')
def qvalChar (c : Char) : Bool := decide (c ≠ '&' ∧ c ≠ '#')

/-- Split a form-urlencoded byte sequence at ampersands (URLSearchParams parsing). -/
def splitAmp : List Char → List (List Char)
  | [] => [[]]
  | c :: cs =>
      if c = '&' then [] :: splitAmp cs
      else
        match splitAmp cs with
        | [] => [[c]]
        | g :: gs => (c :: g) :: gs

/-- URLSearchParams parsing: empty name-value chunks are skipped, the first
equals sign splits name from value. -/
def parseQuery (qs : List Char) : List QPair :=
  if qs = [] then []
  else
    (splitAmp qs).filterMap fun g =>
      if g = [] then none
      else
        some { name := g.takeWhile notEq,
               value := match g.dropWhile notEq with
                        | [] => []
                        | _ :: v => v }

/-- Query and fragment of the serialized remainder after the path. -/
def parseTail (r : List Char) : Option (List QPair) × Option (List Char) :=
  match r with
  | '?' :: r5 =>
      (some (parseQuery (r5.takeWhile notHash)),
       match r5.dropWhile notHash with
       | '#' :: f => some f
       | _ => none)
  | '#' :: f => (none, some f)
  | _ => (none, none)

/-- Parse of a URL with an authority (the part after scheme://). -/
def parseHier (scheme : List Char) (r2 : List Char) : Option UrlRec :=
  let auth := r2.takeWhile authChar
  let r3 := r2.dropWhile authChar
  let host := auth.takeWhile notColon
  let portRes : Option (Option (List Char)) :=
    match auth.dropWhile notColon with
    | [] => some none
    | _ :: ds => if ds ≠ [] ∧ ds.all Char.isDigit then some (some ds) else none
  match portRes with
  | none => none
  | some port =>
      if scheme ∈ specialSchemes ∧ scheme ≠ fileL ∧ host = [] then none
      else
        let pathCs := r3.takeWhile pqChar
        let r4 := r3.dropWhile pqChar
        let path := if pathCs = [] ∧ scheme ∈ specialSchemes then ['/'] else pathCs
        let qf := parseTail r4
        some { scheme := scheme, cannotBeBase := false, host := host, port := port,
               path := path, query := qf.1, fragment := qf.2 }

/-- Parse of a URL without an authority: the path is opaque. -/
def parseNoAuth (scheme : List Char) (r : List Char) : Option UrlRec :=
  let path := r.takeWhile pqChar
  let qf := parseTail (r.dropWhile pqChar)
  some { scheme := scheme, cannotBeBase := true, host := [], port := none,
         path := path, query := qf.1, fragment := qf.2 }

/-- new URL(s): succeeds only on an absolute URL with a well-formed scheme;
two slashes after the colon introduce an authority. -/
def parseUrl (cs : List Char) : Option UrlRec :=
  let scheme := cs.takeWhile notColon
  match cs.dropWhile notColon with
  | [] => none
  | _ :: r =>
      if schemeOk scheme then
        match r with
        | c1 :: c2 :: r2 =>
            if c1 = '/' ∧ c2 = '/' then parseHier scheme r2
            else parseNoAuth scheme r
        | _ => parseNoAuth scheme r
      else none

def serializeQuery : List QPair → List Char
  | [] => []
  | [p] => p.name ++ '=' :: p.value
  | p :: q :: rest => p.name ++ '=' :: p.value ++ '&' :: serializeQuery (q :: rest)

def serializeTail (u : UrlRec) : List Char :=
  (match u.query with
   | none => []
   | some ps => '?' :: serializeQuery ps) ++
  (match u.fragment with
   | none => []
   | some f => '#' :: f)

def serializeUrl (u : UrlRec) : List Char :=
  if u.cannotBeBase then u.scheme ++ ':' :: (u.path ++ serializeTail u)
  else
    u.scheme ++ ':' :: '/' :: '/' ::
      (u.host ++ (match u.port with | none => [] | some ds => ':' :: ds) ++
        u.path ++ serializeTail u)

/-- The tracking query parameters deleted by normalizeUrl (api.ts 1231-1243). -/
def trackingParams : List (List Char) :=
  ["utm_source".toList, "utm_medium".toList, "utm_campaign".toList,
   "utm_term".toList, "utm_content".toList, "ref".toList, "source".toList,
   "fbclid".toList, "gclid".toList, "mc_cid".toList, "mc_eid".toList]

def pathEndsSlash (cs : List Char) : Prop := cs.getLast? = some '/'

instance (cs : List Char) : Decidable (pathEndsSlash cs) := by
  unfold pathEndsSlash; infer_instance

/-- The mutation normalizeUrl performs on a parsed URL record:
scheme forced to https when the protocol setter allows it (special scheme,
and not a file URL with an empty host), fragment cleared, tracking
parameters deleted with searchParams deletion semantics (the query becomes
null when the parameter list empties), and one trailing slash stripped from
a non-opaque path unless the path is exactly the root. -/
def normRec (u : UrlRec) : UrlRec :=
  { scheme :=
      if u.scheme ∈ specialSchemes ∧ ¬(u.scheme = fileL ∧ u.host = []) then httpsL
      else u.scheme,
    cannotBeBase := u.cannotBeBase,
    host := u.host,
    port := u.port,
    path :=
      if u.cannotBeBase = false ∧ pathEndsSlash u.path ∧ u.path ≠ ['/'] then u.path.dropLast
      else u.path,
    query :=
      match u.query with
      | none => none
      | some ps =>
          let ps2 := ps.filter fun p => p.name ∉ trackingParams
          if ps2.isEmpty then none else some ps2,
    fragment := none }

/-- api.ts 1224-1255: normalizeUrl. Unparseable input is returned verbatim
(the catch branch); the function never throws. -/
def normalizeUrl (url : String) : String :=
  match parseUrl url.toList with
  | none => url
  | some u => String.mk (serializeUrl (normRec u))

/-! ## Round-trip lemmas for the URL model -/

theorem scheme_notColon {s : List Char} (h : schemeOk s = true) :
    ∀ c ∈ s, notColon c = true := by
  intro c hc
  unfold schemeOk at h
  match s, h with
  | c0 :: rest, h =>
      have hall : ∀ a ∈ c0 :: rest, isSchemeChar a = true := by
        have := (Bool.and_eq_true _ _).mp h
        exact fun a ha => List.all_eq_true.mp this.2 a ha
      have hcs : isSchemeChar c = true := hall c hc
      unfold notColon
      by_contra hne
      simp at hne
      subst hne
      simp [isSchemeChar] at hcs

theorem splitAmp_no_amp :
    ∀ (g : List Char), '&' ∉ g → splitAmp g = [g]
  | [], _ => rfl
  | c :: cs, h => by
      have hc : ¬(c = '&') := fun he => h (by simp [he])
      have ih := splitAmp_no_amp cs (fun hm => h (by simp [hm]))
      simp [splitAmp, hc, ih]

theorem splitAmp_append :
    ∀ (g : List Char) (t : List Char), '&' ∉ g →
      splitAmp (g ++ '&' :: t) = g :: splitAmp t
  | [], t, _ => by simp [splitAmp]
  | c :: cs, t, h => by
      have hc : ¬(c = '&') := fun he => h (by simp [he])
      have ih := splitAmp_append cs t (fun hm => h (by simp [hm]))
      simp [splitAmp, hc, ih]

theorem serializeQuery_ne_nil : ∀ (ps : List QPair), ps ≠ [] → serializeQuery ps ≠ []
  | [], h => absurd rfl h
  | [p], _ => by
      cases hn : p.name with
      | nil => simp [serializeQuery, hn]
      | cons c cs => simp [serializeQuery, hn]
  | p :: q :: rest, _ => by
      cases hn : p.name with
      | nil => simp [serializeQuery, hn]
      | cons c cs => simp [serializeQuery, hn]

/-- Character soundness of the query serializer: every serialized character is
a pair character, an equals sign or an ampersand. -/
theorem mem_serializeQuery :
    ∀ (ps : List QPair) (c : Char), c ∈ serializeQuery ps →
      c = '=' ∨ c = '&' ∨ (∃ p ∈ ps, c ∈ p.name) ∨ (∃ p ∈ ps, c ∈ p.value)
  | [], c, h => by simp [serializeQuery] at h
  | [p], c, h => by
      rw [show serializeQuery [p] = p.name ++ '=' :: p.value from rfl] at h
      rcases List.mem_append.mp h with h | h
      · exact Or.inr (Or.inr (Or.inl ⟨p, by simp, h⟩))
      · rcases List.mem_cons.mp h with h | h
        · exact Or.inl h
        · exact Or.inr (Or.inr (Or.inr ⟨p, by simp, h⟩))
  | p :: q :: rest, c, h => by
      rw [show serializeQuery (p :: q :: rest)
          = p.name ++ ('=' :: (p.value ++ '&' :: serializeQuery (q :: rest))) from by
        simp [serializeQuery]] at h
      rcases List.mem_append.mp h with h | h
      · exact Or.inr (Or.inr (Or.inl ⟨p, by simp, h⟩))
      · rcases List.mem_cons.mp h with h | h
        · exact Or.inl h
        · rcases List.mem_append.mp h with h | h
          · exact Or.inr (Or.inr (Or.inr ⟨p, by simp, h⟩))
          · rcases List.mem_cons.mp h with h | h
            · exact Or.inr (Or.inl h)
            · rcases mem_serializeQuery (q :: rest) c h with h1 | h1 | ⟨r, hr, hcc⟩ | ⟨r, hr, hcc⟩
              · exact Or.inl h1
              · exact Or.inr (Or.inl h1)
              · exact Or.inr (Or.inr (Or.inl ⟨r, List.mem_cons_of_mem p hr, hcc⟩))
              · exact Or.inr (Or.inr (Or.inr ⟨r, List.mem_cons_of_mem p hr, hcc⟩))

/-- Canonicity of a query pair list: names avoid equals, ampersand and hash;
values avoid ampersand and hash. -/
def PairsCanonical (ps : List QPair) : Prop :=
  ∀ p ∈ ps, (∀ c ∈ p.name, qnameChar c = true) ∧ (∀ c ∈ p.value, qvalChar c = true)

theorem serializeQuery_no_hash {ps : List QPair} (h : PairsCanonical ps) :
    ∀ c ∈ serializeQuery ps, notHash c = true := by
  intro c hc
  rcases mem_serializeQuery ps c hc with h1 | h1 | ⟨p, hp, hcc⟩ | ⟨p, hp, hcc⟩
  · subst h1; rfl
  · subst h1; rfl
  · have := (h p hp).1 c hcc
    unfold qnameChar at this
    unfold notHash
    simp at this ⊢
    exact this.2.2
  · have := (h p hp).2 c hcc
    unfold qvalChar at this
    unfold notHash
    simp at this ⊢
    exact this.2

/-- A single serialized pair contains no ampersand. -/
theorem pairGroup_no_amp (p : QPair)
    (hn : ∀ c ∈ p.name, qnameChar c = true) (hv : ∀ c ∈ p.value, qvalChar c = true) :
    '&' ∉ p.name ++ '=' :: p.value := by
  intro hc
  rcases List.mem_append.mp hc with h | h
  · have := hn '&' h; simp [qnameChar] at this
  · rcases List.mem_cons.mp h with h | h
    · simp at h
    · have := hv '&' h; simp [qvalChar] at this

/-- Parsing the serialized form of a canonical pair list recovers it
(URLSearchParams round trip). -/
theorem parseQuery_serializeQuery :
    ∀ (ps : List QPair), PairsCanonical ps → parseQuery (serializeQuery ps) = ps
  | [], _ => rfl
  | [p], h => by
      have hp := h p (by simp)
      have hg : '&' ∉ p.name ++ '=' :: p.value := pairGroup_no_amp p hp.1 hp.2
      have hne : p.name ++ '=' :: p.value ≠ [] := by
        cases hn : p.name <;> simp [hn]
      have hnoeq : ∀ c ∈ p.name, notEq c = true := by
        intro c hc
        have := hp.1 c hc
        unfold qnameChar at this
        unfold notEq
        simp at this ⊢
        exact this.1
      rw [show serializeQuery [p] = p.name ++ '=' :: p.value from rfl]
      unfold parseQuery
      rw [if_neg hne, splitAmp_no_amp _ hg]
      simp only [List.filterMap]
      rw [if_neg hne]
      rw [takeWhile_append_cons notEq p.name '=' p.value hnoeq (by rfl),
        dropWhile_append_cons notEq p.name '=' p.value hnoeq (by rfl)]
  | p :: q :: rest, h => by
      have hp := h p (by simp)
      have htail : PairsCanonical (q :: rest) := by
        intro r hr
        exact h r (List.mem_cons_of_mem p hr)
      have hg : '&' ∉ p.name ++ '=' :: p.value := pairGroup_no_amp p hp.1 hp.2
      have hnoeq : ∀ c ∈ p.name, notEq c = true := by
        intro c hc
        have := hp.1 c hc
        unfold qnameChar at this
        unfold notEq
        simp at this ⊢
        exact this.1
      have hne : p.name ++ '=' :: p.value ≠ [] := by
        cases hn : p.name <;> simp [hn]
      have ih := parseQuery_serializeQuery (q :: rest) htail
      have hsne : serializeQuery (q :: rest) ≠ [] := serializeQuery_ne_nil _ (by simp)
      have hser : serializeQuery (p :: q :: rest)
          = (p.name ++ '=' :: p.value) ++ '&' :: serializeQuery (q :: rest) := by
        simp [serializeQuery]
      rw [hser]
      unfold parseQuery
      rw [if_neg (by cases hn : p.name <;> simp [hn])]
      rw [splitAmp_append _ _ hg]
      simp only [List.filterMap]
      rw [if_neg hne]
      rw [takeWhile_append_cons notEq p.name '=' p.value hnoeq (by rfl),
        dropWhile_append_cons notEq p.name '=' p.value hnoeq (by rfl)]
      unfold parseQuery at ih
      rw [if_neg hsne] at ih
      rw [ih]

/-- Round trip through the serialized query-and-fragment tail. -/
theorem parseTail_serializeTail (u : UrlRec)
    (hq : ∀ ps, u.query = some ps → PairsCanonical ps) :
    parseTail (serializeTail u) = (u.query, u.fragment) := by
  cases hquery : u.query with
  | none =>
      cases hfrag : u.fragment with
      | none => simp [serializeTail, hquery, hfrag, parseTail]
      | some f => simp [serializeTail, hquery, hfrag, parseTail]
  | some ps =>
      have hps := hq ps hquery
      have hnh : ∀ c ∈ serializeQuery ps, notHash c = true := serializeQuery_no_hash hps
      cases hfrag : u.fragment with
      | none =>
          have hser : serializeTail u = '?' :: serializeQuery ps := by
            simp [serializeTail, hquery, hfrag]
          rw [hser]
          simp only [parseTail]
          rw [takeWhile_all notHash _ hnh, dropWhile_all notHash _ hnh,
            parseQuery_serializeQuery ps hps]
      | some f =>
          have hser : serializeTail u = '?' :: (serializeQuery ps ++ '#' :: f) := by
            simp [serializeTail, hquery, hfrag]
          rw [hser]
          simp only [parseTail]
          rw [takeWhile_append_cons notHash _ _ _ hnh (by decide),
            dropWhile_append_cons notHash _ _ _ hnh (by decide),
            parseQuery_serializeQuery ps hps]
          rfl

theorem takeWhile_eq_cons {α} (p : α → Bool) :
    ∀ (l : List α) (a : α) (t : List α), l.takeWhile p = a :: t →
      ∃ l', l = a :: l' ∧ l'.takeWhile p = t
  | [], a, t, h => by simp [List.takeWhile] at h
  | x :: xs, a, t, h => by
      cases hx : p x with
      | true =>
          rw [List.takeWhile_cons_of_pos hx] at h
          rcases List.cons.injEq .. ▸ h with ⟨h1, h2⟩
          exact ⟨xs, by rw [h1], h2⟩
      | false =>
          rw [List.takeWhile_cons_of_neg (by simp [hx])] at h
          simp at h

/-- Chars of every ampersand-split group come from the split input. -/
theorem mem_splitAmp_chars :
    ∀ (l : List Char) (g : List Char), g ∈ splitAmp l → ∀ c ∈ g, c ∈ l
  | [], g, hg, c, hc => by
      simp [splitAmp] at hg
      subst hg
      simp at hc
  | x :: xs, g, hg, c, hc => by
      by_cases hx : x = '&'
      · rw [show splitAmp (x :: xs) = [] :: splitAmp xs from by simp [splitAmp, hx]] at hg
        rcases List.mem_cons.mp hg with hg | hg
        · subst hg; simp at hc
        · exact List.mem_cons_of_mem x (mem_splitAmp_chars xs g hg c hc)
      · cases hrec : splitAmp xs with
        | nil =>
            rw [show splitAmp (x :: xs) = [[x]] from by simp [splitAmp, hx, hrec]] at hg
            simp at hg
            subst hg
            simp at hc
            simp [hc]
        | cons g0 gs =>
            rw [show splitAmp (x :: xs) = (x :: g0) :: gs from by simp [splitAmp, hx, hrec]] at hg
            rcases List.mem_cons.mp hg with hg | hg
            · subst hg
              rcases List.mem_cons.mp hc with hc | hc
              · simp [hc]
              · exact List.mem_cons_of_mem x
                  (mem_splitAmp_chars xs g0 (by rw [hrec]; simp) c hc)
            · exact List.mem_cons_of_mem x (mem_splitAmp_chars xs g (by rw [hrec]; simp [hg]) c hc)

/-- Ampersand-split groups contain no ampersand. -/
theorem splitAmp_groups_no_amp :
    ∀ (l : List Char) (g : List Char), g ∈ splitAmp l → '&' ∉ g
  | [], g, hg => by
      simp [splitAmp] at hg
      subst hg
      simp
  | x :: xs, g, hg => by
      by_cases hx : x = '&'
      · rw [show splitAmp (x :: xs) = [] :: splitAmp xs from by simp [splitAmp, hx]] at hg
        rcases List.mem_cons.mp hg with hg | hg
        · subst hg; simp
        · exact splitAmp_groups_no_amp xs g hg
      · cases hrec : splitAmp xs with
        | nil =>
            rw [show splitAmp (x :: xs) = [[x]] from by simp [splitAmp, hx, hrec]] at hg
            simp at hg
            subst hg
            simp
            exact fun h => hx h.symm
        | cons g0 gs =>
            rw [show splitAmp (x :: xs) = (x :: g0) :: gs from by simp [splitAmp, hx, hrec]] at hg
            rcases List.mem_cons.mp hg with hg | hg
            · subst hg
              intro hmem
              rcases List.mem_cons.mp hmem with h | h
              · exact hx h.symm
              · exact splitAmp_groups_no_amp xs g0 (by rw [hrec]; simp) h
            · exact splitAmp_groups_no_amp xs g (by rw [hrec]; simp [hg])

/-- Parsed query pairs are canonical whenever the query bytes avoid hashes. -/
theorem parseQuery_canonical (qs : List Char) (hqs : ∀ c ∈ qs, notHash c = true) :
    PairsCanonical (parseQuery qs) := by
  intro p hp
  unfold parseQuery at hp
  by_cases hnil : qs = []
  · rw [if_pos hnil] at hp; simp at hp
  · rw [if_neg hnil] at hp
    rcases List.mem_filterMap.mp hp with ⟨g, hg, hsome⟩
    by_cases hgnil : g = []
    · rw [if_pos hgnil] at hsome; simp at hsome
    · rw [if_neg hgnil] at hsome
      have hp' := Option.some.inj hsome
      subst hp'
      have hgsub : ∀ c ∈ g, c ∈ qs := mem_splitAmp_chars qs g hg
      have hgamp : '&' ∉ g := splitAmp_groups_no_amp qs g hg
      constructor
      · intro c hc
        rcases mem_takeWhile notEq g c hc with ⟨h1, h2⟩
        have hch : notHash c = true := hqs c (hgsub c h2)
        have hcamp : ¬(c = '&') := fun he => hgamp (he ▸ h2)
        unfold qnameChar
        unfold notEq at h1
        unfold notHash at hch
        simp at h1 hch ⊢
        exact ⟨h1, hcamp, hch⟩
      · intro c hc
        have hcg : c ∈ g := by
          rcases hdw : g.dropWhile notEq with _ | ⟨d, v⟩
          · rw [hdw] at hc; simp at hc
          · rw [hdw] at hc
            have : c ∈ g.dropWhile notEq := by rw [hdw]; exact List.mem_cons_of_mem d hc
            exact (List.dropWhile_sublist notEq).subset this
        have hch : notHash c = true := hqs c (hgsub c hcg)
        have hcamp : ¬(c = '&') := fun he => hgamp (he ▸ hcg)
        unfold qvalChar
        unfold notHash at hch
        simp at hch ⊢
        exact ⟨hcamp, hch⟩

/-- Query pairs coming out of parseTail are canonical. -/
theorem parseTail_canonical (r : List Char) (ps : List QPair)
    (h : (parseTail r).1 = some ps) : PairsCanonical ps := by
  unfold parseTail at h
  split at h
  · simp only at h
    have h' := Option.some.inj h
    subst h'
    exact parseQuery_canonical _ fun c hc => (mem_takeWhile notHash _ c hc).1
  · simp at h
  · simp at h

/-- Canonicity invariant satisfied by every parseUrl output and preserved by
normRec; it is exactly what the serializer needs for an exact round trip. -/
structure IsCanonical (u : UrlRec) : Prop where
  scheme_ok : schemeOk u.scheme = true
  host_ok : ∀ c ∈ u.host, hostChar c = true
  host_opq : u.cannotBeBase = true → u.host = []
  port_ok : ∀ ds, u.port = some ds →
    u.cannotBeBase = false ∧ ds ≠ [] ∧ ds.all Char.isDigit = true
  path_ok : ∀ c ∈ u.path, pqChar c = true
  path_head : u.cannotBeBase = false → u.path = [] ∨ ∃ t, u.path = '/' :: t
  path_special : u.cannotBeBase = false → u.scheme ∈ specialSchemes → u.path ≠ []
  path_opq : u.cannotBeBase = true → ∀ t, u.path ≠ '/' :: '/' :: t
  spec_host : u.cannotBeBase = false → u.scheme ∈ specialSchemes → u.scheme ≠ fileL →
    u.host ≠ []
  query_ok : ∀ ps, u.query = some ps → PairsCanonical ps

theorem digit_authChar (c : Char) (h : c.isDigit = true) : authChar c = true := by
  have h1 : c ≠ '/' := fun he => by subst he; exact absurd h (by decide)
  have h2 : c ≠ '?' := fun he => by subst he; exact absurd h (by decide)
  have h3 : c ≠ '#' := fun he => by subst he; exact absurd h (by decide)
  simp [authChar, h1, h2, h3]

theorem hostChar_of (c : Char) (h1 : notColon c = true) (h2 : authChar c = true) :
    hostChar c = true := by
  unfold notColon at h1
  unfold authChar at h2
  unfold hostChar
  simp at h1 h2 ⊢
  exact ⟨h1, h2⟩

theorem hostChar_notColon (c : Char) (h : hostChar c = true) : notColon c = true := by
  unfold hostChar at h
  unfold notColon
  simp at h ⊢
  exact h.1

theorem hostChar_authChar (c : Char) (h : hostChar c = true) : authChar c = true := by
  unfold hostChar at h
  unfold authChar
  simp at h ⊢
  exact h.2

/-- Every successful parseNoAuth output is canonical. -/
theorem parseNoAuth_canonical (scheme r : List Char) (u : UrlRec)
    (hs : schemeOk scheme = true) (hr : ∀ t, r ≠ '/' :: '/' :: t)
    (h : parseNoAuth scheme r = some u) : IsCanonical u := by
  have hu : u =
      { scheme := scheme, cannotBeBase := true, host := [], port := none,
        path := r.takeWhile pqChar, query := (parseTail (r.dropWhile pqChar)).1,
        fragment := (parseTail (r.dropWhile pqChar)).2 } := (Option.some.inj h).symm
  subst hu
  refine ⟨hs, ?_, ?_, ?_, ?_, ?_, ?_, ?_, ?_, ?_⟩
  · intro c hc; simp at hc
  · intro _; rfl
  · intro ds hds; simp at hds
  · intro c hc; exact (mem_takeWhile pqChar r c hc).1
  · intro hfalse; simp at hfalse
  · intro hfalse; simp at hfalse
  · intro _ t ht
    rcases takeWhile_eq_cons pqChar r '/' _ ht with ⟨r1, hr1, ht1⟩
    rcases takeWhile_eq_cons pqChar r1 '/' _ ht1 with ⟨r2, hr2, _⟩
    exact hr r2 (by rw [hr1, hr2])
  · intro hfalse; simp at hfalse
  · intro ps hps; exact parseTail_canonical _ ps hps

/-- Every successful parseHier output is canonical. -/
theorem parseHier_canonical (scheme r2 : List Char) (u : UrlRec)
    (hs : schemeOk scheme = true)
    (h : parseHier scheme r2 = some u) : IsCanonical u := by
  simp only [parseHier] at h
  split at h
  · exact absurd h (by simp)
  · rename_i port heq
    split at h
    · exact absurd h (by simp)
    · rename_i hguard
      have hu := (Option.some.inj h).symm
      subst hu
      have hhost : ∀ c ∈ (r2.takeWhile authChar).takeWhile notColon, hostChar c = true := by
        intro c hc
        rcases mem_takeWhile notColon _ c hc with ⟨h1, h2⟩
        exact hostChar_of c h1 (mem_takeWhile authChar r2 c h2).1
      have hpathCs : ∀ c ∈ (r2.dropWhile authChar).takeWhile pqChar, pqChar c = true :=
        fun c hc => (mem_takeWhile pqChar _ c hc).1
      have hpathHead :
          (r2.dropWhile authChar).takeWhile pqChar = [] ∨
          ∃ t, (r2.dropWhile authChar).takeWhile pqChar = '/' :: t := by
        rcases hdw : r2.dropWhile authChar with _ | ⟨d, t3⟩
        · left; rfl
        · have hda : authChar d = false := dropWhile_cons_head authChar r2 d t3 hdw
          by_cases hd : d = '/'
          · subst hd
            rw [List.takeWhile_cons_of_pos (by decide)]
            exact Or.inr ⟨_, rfl⟩
          · left
            have hdq : pqChar d = false := by
              by_cases hq : d = '?'
              · subst hq; decide
              · by_cases hh : d = '#'
                · subst hh; decide
                · exfalso
                  have hda' : authChar d = true := by simp [authChar, hd, hq, hh]
                  simp [hda'] at hda
            exact List.takeWhile_cons_of_neg (by simp [hdq])
      refine ⟨hs, hhost, ?_, ?_, ?_, ?_, ?_, ?_, ?_, ?_⟩
      · intro hfalse; simp at hfalse
      · -- port canonicity, by inverting the port parse
        intro ds hds
        refine ⟨rfl, ?_⟩
        split at heq
        · rw [← Option.some.inj heq] at hds; simp at hds
        · rename_i rest0 ds0 _
          split at heq
          · rename_i hcond
            rw [← Option.some.inj heq] at hds
            have : ds0 = ds := Option.some.inj hds
            subst this
            exact ⟨hcond.1, hcond.2⟩
          · exact absurd heq (by simp)
      · -- path chars
        intro c hc
        by_cases hcond : (r2.dropWhile authChar).takeWhile pqChar = [] ∧ scheme ∈ specialSchemes
        · rw [if_pos hcond] at hc
          simp at hc
          subst hc
          decide
        · rw [if_neg hcond] at hc
          exact hpathCs c hc
      · -- path head
        intro _
        by_cases hcond : (r2.dropWhile authChar).takeWhile pqChar = [] ∧ scheme ∈ specialSchemes
        · rw [if_pos hcond]
          exact Or.inr ⟨[], rfl⟩
        · rw [if_neg hcond]
          exact hpathHead
      · -- special scheme has nonempty path
        intro _ hspec
        by_cases hempty : (r2.dropWhile authChar).takeWhile pqChar = []
        · rw [if_pos ⟨hempty, hspec⟩]
          simp
        · rw [if_neg (fun hcond => hempty hcond.1)]
          exact hempty
      · intro hfalse; simp at hfalse
      · -- the special-scheme guard passed
        intro _ hspec hfile
        intro hhost0
        exact hguard ⟨hspec, hfile, hhost0⟩
      · intro ps hps
        exact parseTail_canonical _ ps hps

/-- Every successful parseUrl output is canonical. -/
theorem parse_canonical (cs : List Char) (u : UrlRec) (h : parseUrl cs = some u) :
    IsCanonical u := by
  simp only [parseUrl] at h
  split at h
  · exact absurd h (by simp)
  · rename_i r heq
    split at h
    · rename_i hs
      split at h
      · rename_i c1 c2 r2
        split at h
        · rename_i hslash
          exact parseHier_canonical _ r2 u hs h
        · rename_i hslash
          refine parseNoAuth_canonical _ _ u hs ?_ h
          intro t ht
          injection ht with h1 hrest
          injection hrest with h2 _
          exact hslash ⟨h1, h2⟩
      · rename_i hshape
        refine parseNoAuth_canonical _ _ u hs ?_ h
        intro t ht
        exact hshape '/' '/' t ht
    · exact absurd h (by simp)

theorem takeWhile_append_boundary {α} (p : α → Bool) (as bs : List α)
    (ha : ∀ a ∈ as, p a = true)
    (hb : bs = [] ∨ ∃ b bs2, bs = b :: bs2 ∧ p b = false) :
    (as ++ bs).takeWhile p = as ∧ (as ++ bs).dropWhile p = bs := by
  rcases hb with rfl | ⟨b, bs2, rfl, hpb⟩
  · rw [List.append_nil]
    exact ⟨takeWhile_all p as ha, dropWhile_all p as ha⟩
  · exact ⟨takeWhile_append_cons p as b bs2 ha hpb, dropWhile_append_cons p as b bs2 ha hpb⟩

/-- The serialized tail is empty or starts with a question mark or hash. -/
theorem serializeTail_cases (u : UrlRec) :
    serializeTail u = [] ∨
      ∃ b t, serializeTail u = b :: t ∧ (b = '?' ∨ b = '#') ∧
        authChar b = false ∧ pqChar b = false := by
  cases hq : u.query with
  | none =>
      cases hf : u.fragment with
      | none => left; simp [serializeTail, hq, hf]
      | some f =>
          right
          exact ⟨'#', f, by simp [serializeTail, hq, hf], Or.inr rfl, by decide, by decide⟩
  | some ps =>
      right
      refine ⟨'?', serializeQuery ps ++ (match u.fragment with | none => [] | some f => '#' :: f),
        ?_, Or.inl rfl, by decide, by decide⟩
      simp [serializeTail, hq]

/-- parseUrl of scheme://Y parses Y as an authority part. -/
theorem parseUrl_scheme_hier (scheme Y : List Char)
    (hs : schemeOk scheme = true) (hsch : ∀ c ∈ scheme, notColon c = true) :
    parseUrl (scheme ++ ':' :: '/' :: '/' :: Y) = parseHier scheme Y := by
  simp only [parseUrl]
  rw [takeWhile_append_cons notColon scheme ':' _ hsch (by decide),
    dropWhile_append_cons notColon scheme ':' _ hsch (by decide)]
  simp [hs]

/-- parseUrl of an absolute URL whose remainder does not start with two
slashes parses the remainder as an opaque path. -/
theorem parseUrl_scheme_noauth (scheme X : List Char)
    (hs : schemeOk scheme = true) (hsch : ∀ c ∈ scheme, notColon c = true)
    (hnos : ∀ t, X ≠ '/' :: '/' :: t) :
    parseUrl (scheme ++ ':' :: X) = parseNoAuth scheme X := by
  simp only [parseUrl]
  rw [takeWhile_append_cons notColon scheme ':' _ hsch (by decide),
    dropWhile_append_cons notColon scheme ':' _ hsch (by decide)]
  simp only [hs, if_true]
  rcases X with _ | ⟨c1, _ | ⟨c2, r2⟩⟩
  · rfl
  · rfl
  · have hcond : ¬(c1 = '/' ∧ c2 = '/') :=
      fun hand => hnos r2 (by rw [hand.1, hand.2])
    simp [hcond]

/-- Serializing a canonical URL record and parsing it back is the identity. -/
theorem parse_serialize (u : UrlRec) (hc : IsCanonical u) :
    parseUrl (serializeUrl u) = some u := by
  obtain ⟨usch, ucbb, uhost, uport, upath, uquery, ufrag⟩ := u
  have hsch := scheme_notColon hc.scheme_ok
  cases ucbb with
  | true =>
      have hhost : uhost = [] := hc.host_opq rfl
      have hport : uport = none := by
        cases hp : uport with
        | none => rfl
        | some ds =>
            have := (hc.port_ok ds (by rw [hp])).1
            simp at this
      subst hhost
      subst hport
      set w : UrlRec :=
        { scheme := usch, cannotBeBase := true, host := [], port := none,
          path := upath, query := uquery, fragment := ufrag } with hw
      have hser : serializeUrl w = usch ++ ':' :: (upath ++ serializeTail w) := by
        simp [serializeUrl]
      have hnoauth : parseNoAuth usch (upath ++ serializeTail w) = some w := by
        have hsplit := takeWhile_append_boundary pqChar upath (serializeTail w)
          (fun c hcv => hc.path_ok c hcv)
          (by
            rcases serializeTail_cases w with h0 | ⟨b, t, hbt, _, _, hpq⟩
            · exact Or.inl h0
            · exact Or.inr ⟨b, t, hbt, hpq⟩)
        unfold parseNoAuth
        rw [hsplit.1, hsplit.2, parseTail_serializeTail w (fun ps hps => hc.query_ok ps hps)]
      have hnoslash : ∀ t, upath ++ serializeTail w ≠ '/' :: '/' :: t := by
        intro t ht
        rcases hp : upath with _ | ⟨c1, pt⟩
        · rw [hp, List.nil_append] at ht
          rcases serializeTail_cases w with h0 | ⟨b, t2, hbt, hb, _, _⟩
          · rw [h0] at ht; exact absurd ht (by simp)
          · rw [hbt] at ht
            injection ht with hb1 _
            rcases hb with rfl | rfl <;> simp at hb1
        · rw [hp] at ht
          rcases hpt : pt with _ | ⟨c2, pt2⟩
          · rw [hpt] at ht
            simp only [List.cons_append, List.nil_append] at ht
            injection ht with h1 hrest
            rcases serializeTail_cases w with h0 | ⟨b, t2, hbt, hb, _, _⟩
            · rw [h0] at hrest; exact absurd hrest (by simp)
            · rw [hbt] at hrest
              injection hrest with hb1 _
              rcases hb with rfl | rfl <;> simp at hb1
          · rw [hpt] at ht
            simp only [List.cons_append] at ht
            injection ht with h1 hrest
            injection hrest with h2 _
            refine hc.path_opq rfl pt2 ?_
            show upath = '/' :: '/' :: pt2
            rw [hp, hpt, h1, h2]
      rw [hser, parseUrl_scheme_noauth usch _ hc.scheme_ok hsch hnoslash]
      exact hnoauth
  | false =>
      have hscheme : schemeOk usch = true := hc.scheme_ok
      have hhostChars : ∀ c ∈ uhost, hostChar c = true := hc.host_ok
      have hportOk : ∀ ds, uport = some ds → ds ≠ [] ∧ ds.all Char.isDigit = true :=
        fun ds hds => (hc.port_ok ds hds).2
      have hpathOk : ∀ c ∈ upath, pqChar c = true := hc.path_ok
      have hpathHead : upath = [] ∨ ∃ t, upath = '/' :: t := hc.path_head rfl
      have hpathSpecial : usch ∈ specialSchemes → upath ≠ [] := hc.path_special rfl
      have hspecHost : usch ∈ specialSchemes → usch ≠ fileL → uhost ≠ [] := hc.spec_host rfl
      have hqueryOk : ∀ ps, uquery = some ps → PairsCanonical ps := hc.query_ok
      set w : UrlRec :=
        { scheme := usch, cannotBeBase := false, host := uhost, port := uport,
          path := upath, query := uquery, fragment := ufrag } with hw
      have hntc : ∀ c ∈ uhost, notColon c = true :=
        fun c hcm => hostChar_notColon c (hhostChars c hcm)
      have hpathBoundary :
          upath ++ serializeTail w = [] ∨
          ∃ b bs2, upath ++ serializeTail w = b :: bs2 ∧ authChar b = false := by
        rcases hpathHead with h0 | ⟨t, hslash⟩
        · rcases serializeTail_cases w with h1 | ⟨b, t2, hbt, _, hab, _⟩
          · left; rw [h0, h1]; rfl
          · right; exact ⟨b, t2, by rw [h0, hbt]; rfl, hab⟩
        · right
          refine ⟨'/', t ++ serializeTail w, ?_, by decide⟩
          rw [hslash]
          rfl
      have hpathsplit := takeWhile_append_boundary pqChar upath (serializeTail w)
        hpathOk
        (by
          rcases serializeTail_cases w with h0 | ⟨b, t2, hbt, _, _, hpq⟩
          · exact Or.inl h0
          · exact Or.inr ⟨b, t2, hbt, hpq⟩)
      have hguard : ¬(usch ∈ specialSchemes ∧ usch ≠ fileL ∧ uhost = []) := by
        rintro ⟨hsp, hf, hh⟩
        exact hspecHost hsp hf hh
      have hpathrec :
          (if upath = [] ∧ usch ∈ specialSchemes then ['/'] else upath) = upath := by
        by_cases he : upath = []
        · by_cases hsp : usch ∈ specialSchemes
          · exact absurd (hpathSpecial hsp) (by simp [he])
          · rw [if_neg (fun hand => hsp hand.2)]
        · rw [if_neg (fun hand => he hand.1)]
      have hqrt : parseTail (serializeTail w) = (uquery, ufrag) :=
        parseTail_serializeTail w hqueryOk
      cases hp : uport with
      | none =>
          have hser : serializeUrl w
              = usch ++ ':' :: '/' :: '/' :: (uhost ++ (upath ++ serializeTail w)) := by
            simp [serializeUrl, hp, hw]
          have hauthsplit := takeWhile_append_boundary authChar uhost
            (upath ++ serializeTail w)
            (fun c hcm => hostChar_authChar c (hhostChars c hcm)) hpathBoundary
          have hhier : parseHier usch (uhost ++ (upath ++ serializeTail w)) = some w := by
            simp only [parseHier]
            rw [hauthsplit.1, hauthsplit.2,
              takeWhile_all notColon uhost hntc, dropWhile_all notColon uhost hntc,
              hpathsplit.1, hpathsplit.2, hqrt]
            simp only [hguard, if_false]
            rw [hpathrec]
            simp [hw, hp]
          rw [hser, parseUrl_scheme_hier usch _ hscheme hsch]
          exact hhier
      | some ds =>
          have hds := hportOk ds hp
          have hdigits : ∀ c ∈ ':' :: ds, authChar c = true := by
            intro c hcm
            rcases List.mem_cons.mp hcm with rfl | hcm
            · decide
            · exact digit_authChar c (List.all_eq_true.mp hds.2 c hcm)
          have hser : serializeUrl w
              = usch ++ ':' :: '/' :: '/' ::
                  ((uhost ++ ':' :: ds) ++ (upath ++ serializeTail w)) := by
            simp [serializeUrl, hp, hw]
          have hauthChars : ∀ c ∈ uhost ++ ':' :: ds, authChar c = true := by
            intro c hcm
            rcases List.mem_append.mp hcm with hcm | hcm
            · exact hostChar_authChar c (hhostChars c hcm)
            · exact hdigits c hcm
          have hauthsplit := takeWhile_append_boundary authChar (uhost ++ ':' :: ds)
            (upath ++ serializeTail w) hauthChars hpathBoundary
          have hhostsplit :
              (uhost ++ ':' :: ds).takeWhile notColon = uhost ∧
              (uhost ++ ':' :: ds).dropWhile notColon = ':' :: ds :=
            ⟨takeWhile_append_cons notColon uhost ':' ds hntc (by decide),
             dropWhile_append_cons notColon uhost ':' ds hntc (by decide)⟩
          have hhier : parseHier usch
              ((uhost ++ ':' :: ds) ++ (upath ++ serializeTail w)) = some w := by
            simp only [parseHier]
            rw [hauthsplit.1, hauthsplit.2, hhostsplit.1, hhostsplit.2,
              hpathsplit.1, hpathsplit.2, hqrt]
            simp only [hds.1, hds.2, ne_eq, not_false_eq_true, and_self, if_true,
              hguard, if_false]
            rw [hpathrec]
            simp [hw, hp]
          rw [hser, parseUrl_scheme_hier usch _ hscheme hsch]
          exact hhier
theorem urlRec_ext (a b : UrlRec) (h1 : a.scheme = b.scheme)
    (h2 : a.cannotBeBase = b.cannotBeBase) (h3 : a.host = b.host) (h4 : a.port = b.port)
    (h5 : a.path = b.path) (h6 : a.query = b.query) (h7 : a.fragment = b.fragment) :
    a = b := by
  cases a; cases b
  simp only at h1 h2 h3 h4 h5 h6 h7
  simp [h1, h2, h3, h4, h5, h6, h7]

theorem normRec_scheme (u : UrlRec) :
    (normRec u).scheme =
      if u.scheme ∈ specialSchemes ∧ ¬(u.scheme = fileL ∧ u.host = []) then httpsL
      else u.scheme := rfl

theorem normRec_path (u : UrlRec) :
    (normRec u).path =
      if u.cannotBeBase = false ∧ pathEndsSlash u.path ∧ u.path ≠ ['/'] then u.path.dropLast
      else u.path := rfl

theorem normRec_query (u : UrlRec) :
    (normRec u).query =
      match u.query with
      | none => none
      | some ps =>
          let ps2 := ps.filter fun p => p.name ∉ trackingParams
          if ps2.isEmpty then none else some ps2 := rfl

/-- normRec preserves canonicity. -/
theorem normRec_canonical (u : UrlRec) (hc : IsCanonical u) : IsCanonical (normRec u) := by
  have hspecial : (normRec u).scheme ∈ specialSchemes → u.scheme ∈ specialSchemes := by
    rw [normRec_scheme]
    by_cases hC : u.scheme ∈ specialSchemes ∧ ¬(u.scheme = fileL ∧ u.host = [])
    · rw [if_pos hC]; exact fun _ => hC.1
    · rw [if_neg hC]; exact id
  refine ⟨?_, hc.host_ok, hc.host_opq, ?_, ?_, ?_, ?_, ?_, ?_, ?_⟩
  · rw [normRec_scheme]
    by_cases hC : u.scheme ∈ specialSchemes ∧ ¬(u.scheme = fileL ∧ u.host = [])
    · rw [if_pos hC]; decide
    · rw [if_neg hC]; exact hc.scheme_ok
  · exact fun ds hds => hc.port_ok ds hds
  · intro c hcm
    rw [normRec_path] at hcm
    by_cases hC : u.cannotBeBase = false ∧ pathEndsSlash u.path ∧ u.path ≠ ['/']
    · rw [if_pos hC] at hcm
      exact hc.path_ok c (mem_dropLast u.path c hcm)
    · rw [if_neg hC] at hcm
      exact hc.path_ok c hcm
  · intro hcb
    rw [normRec_path]
    by_cases hC : u.cannotBeBase = false ∧ pathEndsSlash u.path ∧ u.path ≠ ['/']
    · rw [if_pos hC]
      rcases hc.path_head hC.1 with h0 | ⟨t, ht⟩
      · rw [h0] at hC
        exact absurd hC.2.1 (by simp [pathEndsSlash])
      · rcases hx : t with _ | ⟨x, t2⟩
        · rw [hx] at ht
          exact absurd ht hC.2.2
        · right
          refine ⟨(x :: t2).dropLast, ?_⟩
          rw [ht, hx]
          rfl
    · rw [if_neg hC]
      exact hc.path_head hcb
  · intro hcb hspec
    rw [normRec_path]
    have hpne : u.path ≠ [] := hc.path_special hcb (hspecial hspec)
    by_cases hC : u.cannotBeBase = false ∧ pathEndsSlash u.path ∧ u.path ≠ ['/']
    · rw [if_pos hC]
      rcases hc.path_head hC.1 with h0 | ⟨t, ht⟩
      · exact absurd h0 hpne
      · rcases hx : t with _ | ⟨x, t2⟩
        · rw [hx] at ht
          exact absurd ht hC.2.2
        · rw [ht, hx]
          simp
    · rw [if_neg hC]
      exact hpne
  · intro hcb t
    rw [normRec_path]
    have hcb' : u.cannotBeBase = true := hcb
    rw [if_neg (fun hand => by rw [hcb'] at hand; exact absurd hand.1 (by simp))]
    exact hc.path_opq hcb' t
  · intro hcb hspec hfile
    rw [normRec_scheme] at hspec hfile
    show u.host ≠ []
    by_cases hC : u.scheme ∈ specialSchemes ∧ ¬(u.scheme = fileL ∧ u.host = [])
    · by_cases huf : u.scheme = fileL
      · intro hh
        exact hC.2 ⟨huf, hh⟩
      · exact hc.spec_host hcb hC.1 huf
    · rw [if_neg hC] at hspec hfile
      exact hc.spec_host hcb hspec hfile
  · intro ps hps
    rw [normRec_query] at hps
    cases hq : u.query with
    | none => rw [hq] at hps; simp at hps
    | some ps0 =>
        rw [hq] at hps
        simp only at hps
        by_cases hemp : (ps0.filter fun p => p.name ∉ trackingParams).isEmpty
        · rw [if_pos hemp] at hps; simp at hps
        · rw [if_neg hemp] at hps
          have hps' := Option.some.inj hps
          subst hps'
          intro p hp
          exact hc.query_ok ps0 hq p (List.mem_of_mem_filter hp)

/-- normRec is idempotent as soon as its output path is not itself strippable
(one trailing slash is removed per application). -/
theorem normRec_idem (u : UrlRec)
    (hstab : ¬((normRec u).cannotBeBase = false ∧ pathEndsSlash (normRec u).path ∧
      (normRec u).path ≠ ['/'])) :
    normRec (normRec u) = normRec u := by
  refine urlRec_ext _ _ ?_ rfl rfl rfl ?_ ?_ rfl
  · rw [normRec_scheme (normRec u), normRec_scheme u]
    by_cases hC : u.scheme ∈ specialSchemes ∧ ¬(u.scheme = fileL ∧ u.host = [])
    · rw [if_pos hC]
      have hhost : (normRec u).host = u.host := rfl
      have hC2 : (normRec u).scheme ∈ specialSchemes ∧
          ¬((normRec u).scheme = fileL ∧ (normRec u).host = []) := by
        rw [normRec_scheme, if_pos hC]
        exact ⟨by decide, fun hand => absurd hand.1 (by decide)⟩
      rw [normRec_scheme, if_pos hC] at hC2
      rw [if_pos hC2]
    · rw [if_neg hC]
      have hC2 : ¬((normRec u).scheme ∈ specialSchemes ∧
          ¬((normRec u).scheme = fileL ∧ (normRec u).host = [])) := by
        rw [normRec_scheme, if_neg hC]
        exact hC
      rw [normRec_scheme, if_neg hC] at hC2
      rw [if_neg hC2]
  · rw [normRec_path (normRec u)]
    rw [if_neg hstab]
  · rw [normRec_query (normRec u)]
    cases hq : u.query with
    | none =>
        have h1 : (normRec u).query = none := by rw [normRec_query, hq]
        rw [h1]
    | some ps =>
        by_cases hemp : (ps.filter fun p => p.name ∉ trackingParams).isEmpty
        · have h1 : (normRec u).query = none := by
            rw [normRec_query, hq]
            simp only
            rw [if_pos hemp]
          rw [h1]
        · have h1 : (normRec u).query = some (ps.filter fun p => p.name ∉ trackingParams) := by
            rw [normRec_query, hq]
            simp only
            rw [if_neg hemp]
          rw [h1]
          simp only
          have hall : ∀ p ∈ ps.filter (fun p => p.name ∉ trackingParams),
              (fun p : QPair => decide (p.name ∉ trackingParams)) p = true := by
            intro p hp
            have := List.of_mem_filter hp
            simpa using this
          rw [List.filter_eq_self.mpr hall]
          rw [if_neg hemp]

/-! ## Async search-job poller (api.ts 126-348)

The poller is driven by an externally supplied trace: one entry per loop
iteration, holding the wall-clock elapsed milliseconds observed at the top
of the while loop and the result of that iteration fetch (none models a
transient getSearchJob failure, which returns null rather than throwing).
The backoff interval only influences those elapsed values, so it is left
inside the trace. -/

structure SummaryObj where
  status : String
  content : Option String := none
deriving DecidableEq

/-- The summary field is null, a legacy plain string, or a status object. -/
inductive SummaryValue
  | nullVal
  | strVal (s : String)
  | objVal (o : SummaryObj)
deriving DecidableEq

structure QueryInterpretation where
  metadata_status : Option String := none
deriving DecidableEq

structure SearchJobResponse where
  search_job_id : String
  status : String
  summary : SummaryValue := .nullVal
  query_interpretation : Option QueryInterpretation := none
deriving DecidableEq

structure PollConfig where
  initialInterval : Nat
  maxInterval : Nat
  maxDuration : Nat
deriving DecidableEq

def DEFAULT_POLL_CONFIG : PollConfig :=
  { initialInterval := 500, maxInterval := 4000, maxDuration := 60000 }

structure PollParams where
  generate_summary : Bool := false
  extract_metadata : Bool := false
  timeout_ms : Option Nat := none
deriving DecidableEq

/-- How a polling run ends: a normal return with all requested features done,
the thrown ApiError on a failed job, or the normal return of the last
successfully observed snapshot once the wall-clock budget is exhausted
(the code logs and returns; it never throws on timeout). -/
inductive PollExit
  | completedJob (job : SearchJobResponse)
  | jobFailed (job : SearchJobResponse)
  | timedOut (job : SearchJobResponse)
deriving DecidableEq

def metaStatus (j : SearchJobResponse) : Option String :=
  j.query_interpretation.bind fun q => q.metadata_status

/-- api.ts 313-324: summaryDone. An empty legacy string is falsy in the
truthiness test on job.summary, so it never reaches the string branch. -/
def summaryDone (p : PollParams) (j : SearchJobResponse) : Bool :=
  if p.generate_summary then
    match j.summary with
    | .nullVal => false
    | .strVal s => !s.isEmpty
    | .objVal o => o.status == "completed" || o.status == "failed"
  else true

/-- api.ts 326-329: metadataDone. -/
def metadataDone (p : PollParams) (j : SearchJobResponse) : Bool :=
  !p.extract_metadata ||
    (metaStatus j == some "completed" || metaStatus j == some "failed")

/-- api.ts 294-341: the while loop. Each trace entry carries the elapsed
time sampled by the loop condition and the fetch result of that round. -/
def pollLoop (p : PollParams) (maxDuration : Nat) :
    SearchJobResponse → List (Nat × Option SearchJobResponse) → PollExit
  | last, [] => .timedOut last
  | last, (t, res) :: rest =>
      if t < maxDuration then
        match res with
        | none => pollLoop p maxDuration last rest
        | some job =>
            if job.status = "failed" then .jobFailed job
            else if summaryDone p job && metadataDone p job then .completedJob job
            else pollLoop p maxDuration job rest
      else .timedOut last

/-- api.ts 253-348: searchWithPolling after a successful initial search call.
With no async feature requested the initial response is returned unpolled. -/
def searchWithPolling (p : PollParams) (initialResult : SearchJobResponse)
    (trace : List (Nat × Option SearchJobResponse)) : PollExit :=
  if p.generate_summary || p.extract_metadata then
    pollLoop p (p.timeout_ms.getD DEFAULT_POLL_CONFIG.maxDuration) initialResult trace
  else .completedJob initialResult

/-- The last successfully observed snapshot after folding a trace prefix over
the initial response. -/
def lastObserved (init : SearchJobResponse)
    (events : List (Nat × Option SearchJobResponse)) : SearchJobResponse :=
  events.foldl (fun acc e => match e.2 with | some j => j | none => acc) init

theorem lastObserved_nil (init : SearchJobResponse) : lastObserved init [] = init := rfl

theorem lastObserved_cons (init : SearchJobResponse) (e : Nat × Option SearchJobResponse)
    (es : List (Nat × Option SearchJobResponse)) :
    lastObserved init (e :: es) =
      lastObserved (match e.2 with | some j => j | none => init) es := rfl

/-- Whenever the loop exits through the budget check, the returned snapshot is
the fold of the successfully processed prefix over the starting snapshot. -/
theorem pollLoop_timedOut (p : PollParams) (maxDuration : Nat) :
    ∀ (trace : List (Nat × Option SearchJobResponse)) (last j : SearchJobResponse),
      pollLoop p maxDuration last trace = .timedOut j →
      ∃ n, j = lastObserved last (trace.take n)
  | [], last, j, h => by
      refine ⟨0, ?_⟩
      simp only [pollLoop] at h
      cases h
      rfl
  | (t, res) :: rest, last, j, h => by
      simp only [pollLoop] at h
      split at h
      · split at h
        · rcases pollLoop_timedOut p maxDuration rest last j h with ⟨n, hn⟩
          exact ⟨n + 1, by rw [List.take_succ_cons, lastObserved_cons]; exact hn⟩
        · rename_i job
          split at h
          · cases h
          · split at h
            · cases h
            · rcases pollLoop_timedOut p maxDuration rest job j h with ⟨n, hn⟩
              exact ⟨n + 1, by rw [List.take_succ_cons, lastObserved_cons]; exact hn⟩
      · cases h
        exact ⟨0, rfl⟩

/-! ## Workflow updates digest engine (api.ts 1060-1604, types.ts)

Data structures mirror types.ts restricted to the fields the digest engine
reads; unread fields (stop_condition, analytics, from/to values, pagination
and similar) are omitted. Record<string, unknown> extracted state is
projected onto the three keys the code reads: net_new_urls,
new_domains_count and extraction_changes. -/

inductive ChangeType
  | increase
  | decrease
  | added
  | removed
  | status_change
  | text_change
deriving DecidableEq

structure FieldChange where
  field : String := ""
  change_type : ChangeType
  change_percent : Option Rat := none
deriving DecidableEq

structure ExecutionDiff where
  execution_id : String := ""
  has_changes : Bool
  changes : List FieldChange := []
  summary : Option String := none
deriving DecidableEq

structure WorkflowDiffStats where
  executions_with_changes : Int := 0
  executions_without_changes : Int := 0
  change_rate : Rat
deriving DecidableEq

structure NewUrlSummary where
  url : String
  title : Option String := none
  snippet : Option String := none
  published_date : Option String := none
  document_type : Option String := none
deriving DecidableEq

/-- One entry of extracted-state net_new_urls: a legacy bare string or an
enriched object. -/
inductive NetNewUrlEntry
  | strUrl (s : String)
  | objUrl (u : NewUrlSummary)
deriving DecidableEq

structure LatestState where
  net_new_urls : Option (List NetNewUrlEntry) := none
  new_domains_count : Option Int := none
  extraction_changes : Option (List String) := none
deriving DecidableEq

structure WorkflowLatest where
  state : LatestState
deriving DecidableEq

structure WorkflowDiffResponse where
  workflow_id : String := ""
  total_executions : Int := 0
  stats : Option WorkflowDiffStats := none
  diffs : List ExecutionDiff := []
  latest : Option WorkflowLatest := none
deriving DecidableEq

structure OperationConfig where
  priority : Option String := none
deriving DecidableEq

structure Workflow where
  id : String
  name : String := ""
  mode : Option String := none
  workflow_type : Option String := none
  operation_config : Option OperationConfig := none
  status : String := "active"
  interval_minutes : Int := 0
  next_execution_at : Option Int := none
  last_execution_at : Option Int := none
deriving DecidableEq

structure WorkflowExecution where
  id : String := ""
  workflow_id : String := ""
  status : String := ""
  started_at : Option Int := none
  completed_at : Option Int := none
deriving DecidableEq

structure WorkflowTimelineResponse where
  workflow_id : String := ""
  executions : List WorkflowExecution := []
deriving DecidableEq

structure ListWorkflowsResponse where
  workflows : List Workflow
deriving DecidableEq

inductive SignalLevel
  | urgent
  | notable
  | routine
  | noise
deriving DecidableEq

structure WorkflowDigest where
  workflow_id : String
  workflow_name : String := ""
  workflow_type : Option String := none
  workflow_mode : Option String := none
  status : String := "active"
  has_changes : Bool
  triggered_condition : Bool
  executions_since : Nat
  last_execution_at : Option Int := none
  next_execution_at : Option Int := none
  change_summary : String
  change_rate : Option Rat := none
  signal_score : Option Int := none
  signal_level : Option SignalLevel := none
  signal_reasoning : Option String := none
  new_urls : Option (List NewUrlSummary) := none
  recent_diffs : Option (List ExecutionDiff) := none
  recent_executions : Option (List WorkflowExecution) := none
  latest_state : Option LatestState := none
  error : Option String := none
deriving DecidableEq

/-- api.ts 1067-1104: generateChangeSummary. -/
def generateChangeSummary (diff : WorkflowDiffResponse) : String :=
  let rest :=
    match diff.diffs with
    | [] => "No changes"
    | latestDiff :: _ =>
        if latestDiff.has_changes = false || latestDiff.changes.isEmpty then
          "No changes detected"
        else
          let nAdded := latestDiff.changes.countP fun c => c.change_type == ChangeType.added
          let nRemoved := latestDiff.changes.countP fun c => c.change_type == ChangeType.removed
          let nInc := latestDiff.changes.countP fun c => c.change_type == ChangeType.increase
          let nDec := latestDiff.changes.countP fun c => c.change_type == ChangeType.decrease
          let nStatus := latestDiff.changes.countP fun c => c.change_type == ChangeType.status_change
          let nText := latestDiff.changes.countP fun c => c.change_type == ChangeType.text_change
          let nMod := nStatus + nText
          let parts : List String :=
            (if nAdded ≠ 0 then [s!"+{nAdded} added"] else [])
            ++ (if nRemoved ≠ 0 then [s!"-{nRemoved} removed"] else [])
            ++ (if nInc ≠ 0 then [s!"↑{nInc} increased"] else [])
            ++ (if nDec ≠ 0 then [s!"↓{nDec} decreased"] else [])
            ++ (if nStatus ≠ 0 ∨ nText ≠ 0 then [s!"~{nMod} modified"] else [])
          if parts.isEmpty then
            match latestDiff.summary with
            | some s2 => if s2.isEmpty then "No changes" else s2
            | none => "No changes"
          else String.intercalate ", " parts
  match diff.stats with
  | some st =>
      if 0 < diff.total_executions ∧ st.change_rate = 0 then "No changes detected" else rest
  | none => rest

structure SignalScoringContext where
  diff : WorkflowDiffResponse
  workflow : Workflow
  newUrls : Option (List NewUrlSummary) := none
  triggeredCondition : Bool
deriving DecidableEq

structure SignalResult where
  score : Int
  level : SignalLevel
  reasoning : String
deriving DecidableEq

def highSignalDocTypes : List String :=
  ["legal_regulatory", "academic_research", "news_editorial", "government"]

/-- api.ts 1119-1218: computeSignalScore. -/
def computeSignalScore (ctx : SignalScoringContext) : SignalResult :=
  let score : Int := 50
  let reasons : List String := []
  let priority := ctx.workflow.operation_config.bind fun oc => oc.priority
  let (score, reasons) :=
    if priority = some "high" then (score + 25, reasons ++ ["high-priority workflow"])
    else if priority = some "low" then (score - 15, reasons ++ ["low-priority workflow"])
    else (score, reasons)
  let (score, reasons) :=
    if ctx.triggeredCondition then (score + 30, reasons ++ ["stop condition triggered"])
    else (score, reasons)
  let hasHighSignalDocs :=
    match ctx.newUrls with
    | none => false
    | some us =>
        us.any fun uu =>
          match uu.document_type with
          | some dt => !dt.isEmpty && highSignalDocTypes.contains dt
          | none => false
  let (score, reasons) :=
    if hasHighSignalDocs then
      (score + 20, reasons ++ ["contains regulatory/academic/news content"])
    else (score, reasons)
  let churnRate : Rat := (ctx.diff.stats.map fun st => st.change_rate).getD 0
  let (score, reasons) :=
    if 50 < churnRate then (score - 15, reasons ++ ["high churn rate"])
    else if 0 < churnRate ∧ churnRate ≤ 20 then (score + 5, reasons)
    else (score, reasons)
  let latestState := ctx.diff.latest.map fun l => l.state
  let newDomains := latestState.bind fun st => st.new_domains_count
  let (score, reasons) :=
    match newDomains with
    | some n =>
        if 0 < n then (score + 10, reasons ++ [s!"{n} new source(s)"]) else (score, reasons)
    | none => (score, reasons)
  let extractionChanges := latestState.bind fun st => st.extraction_changes
  let (score, reasons) :=
    match extractionChanges with
    | some l =>
        if !l.isEmpty then (score + 15, reasons ++ ["extraction data changed"])
        else (score, reasons)
    | none => (score, reasons)
  let newUrlCount := (ctx.newUrls.map fun us => us.length).getD 0
  let (score, reasons) :=
    if 5 ≤ newUrlCount then (score + 10, reasons ++ [s!"{newUrlCount} new URLs"])
    else if 0 < newUrlCount then (score + 5, reasons)
    else (score, reasons)
  let score := max 0 (min 100 score)
  let level : SignalLevel :=
    if 80 ≤ score then .urgent
    else if 60 ≤ score then .notable
    else if 40 ≤ score then .routine
    else .noise
  { score := score, level := level,
    reasoning :=
      if 0 < reasons.length then String.intercalate ", " reasons else "baseline activity" }

/-- The fixed 80/60/40 thresholds of the specification, as a function of the
score alone. -/
def levelOfScore (score : Int) : SignalLevel :=
  if 80 ≤ score then .urgent
  else if 60 ≤ score then .notable
  else if 40 ≤ score then .routine
  else .noise

/-! ## Cross-workflow correlation (api.ts 1261-1359) -/

structure CorrelationWorkflowRef where
  workflow_id : String
  workflow_name : String
  context : String
deriving DecidableEq

structure CrossWorkflowCorrelation where
  type : String
  value : String
  workflows : List CorrelationWorkflowRef
  insight : String
deriving DecidableEq

structure CorrelationMetadata where
  workflows_analyzed : Nat
  workflows_skipped : Nat
  total_urls_compared : Nat
deriving DecidableEq

structure FindCorrelationsResult where
  correlations : List CrossWorkflowCorrelation
  metadata : CorrelationMetadata
deriving DecidableEq

def MAX_WORKFLOWS_FOR_CORRELATION : Nat := 15

/-- JavaScript Map get-or-default/push/set: appends to the bucket of an
existing key in place, or appends a new key at the end (insertion order is
preserved on iteration). -/
def mapUpsert {E : Type} (m : List (String × List E)) (k : String) (e : E) :
    List (String × List E) :=
  if m.any fun kv => kv.1 == k then
    m.map fun kv => if kv.1 == k then (kv.1, kv.2 ++ [e]) else kv
  else m ++ [(k, [e])]

/-- Stable insertion into a sorted list: the JS comparator contract (insert
after every element the new one does not strictly precede). -/
def jsInsert {α : Type} (cmp : α → α → Int) (a : α) : List α → List α
  | [] => [a]
  | b :: bs => if cmp a b < 0 then a :: b :: bs else b :: jsInsert cmp a bs

/-- Array.prototype.sort with a consistent comparator: sorted output, stable. -/
def jsSortBy {α : Type} (cmp : α → α → Int) : List α → List α
  | [] => []
  | a :: as => jsInsert cmp a (jsSortBy cmp as)

def eligibleFilter (d : WorkflowDigest) : Bool :=
  d.has_changes && (match d.new_urls with | some us => !us.isEmpty | none => false)

/-- api.ts 1274-1359: findCorrelations. -/
def findCorrelations (digests : List WorkflowDigest) : FindCorrelationsResult :=
  let eligAll := digests.filter eligibleFilter
  let eligibleDigests := eligAll.take MAX_WORKFLOWS_FOR_CORRELATION
  let workflowsSkipped := eligAll.length - MAX_WORKFLOWS_FOR_CORRELATION
  if eligibleDigests.length < 2 then
    { correlations := [],
      metadata :=
        { workflows_analyzed := eligibleDigests.length,
          workflows_skipped := workflowsSkipped,
          total_urls_compared :=
            eligibleDigests.foldl (fun acc d => acc + (d.new_urls.getD []).length) 0 } }
  else
    let built := eligibleDigests.foldl
      (fun acc d =>
        (d.new_urls.getD []).foldl
          (fun acc2 urlObj =>
            (mapUpsert acc2.1 (normalizeUrl urlObj.url) (d, urlObj), acc2.2 + 1))
          acc)
      (([] : List (String × List (WorkflowDigest × NewUrlSummary))), (0 : Nat))
    let correlations := (built.1.filter fun kv => 2 ≤ kv.2.length).map fun kv =>
      let cnt := kv.2.length
      let joined := String.intercalate ", " (kv.2.map fun wv => wv.1.workflow_name)
      { type := "shared_url", value := kv.1,
        workflows := kv.2.map fun wv =>
          { workflow_id := wv.1.workflow_id, workflow_name := wv.1.workflow_name,
            context := wv.2.snippet.getD "" },
        insight := s!"Appears in {cnt} monitors: {joined}" : CrossWorkflowCorrelation }
    let correlations := jsSortBy
      (fun a b => (b.workflows.length : Int) - (a.workflows.length : Int)) correlations
    { correlations := correlations,
      metadata :=
        { workflows_analyzed := eligibleDigests.length,
          workflows_skipped := workflowsSkipped,
          total_urls_compared := built.2 } }

/-! ## The digest aggregation (api.ts 1365-1604, 715-730) -/

inductive DigestFormat
  | json
  | briefing
  | briefing_llm
  | compact
deriving DecidableEq

structure WorkflowUpdatesDigestResponse where
  summary : String
  since : Int
  checked_at : Int
  total_workflows : Nat
  workflows_with_changes : Nat
  triggered_workflows : Nat
  total_executions_since : Nat
  workflows : List WorkflowDigest
  formatted_output : Option String := none
  correlations : Option (List CrossWorkflowCorrelation) := none
  correlation_metadata : Option CorrelationMetadata := none
deriving DecidableEq

structure DigestParams where
  since : Option Int := none
  include_inactive : Option Bool := none
  max_workflows : Option Int := none
  verbose : Option Bool := none
  format : Option DigestFormat := none
deriving DecidableEq

/-- The remote collaborators: the current clock, the workflow listing
endpoint, the timeline and diff endpoints (which may throw, modelled as
Except), and the markdown briefing renderer (generateBriefingMarkdown,
presentation-only and unused by every claim, abstracted as a supplied
renderer with the same argument list). -/
structure DigestEnv where
  now : Int
  httpListWorkflows : Option Int → Option String → List Workflow
  timeline : String → Except String WorkflowTimelineResponse
  diff : String → Int → Nat → Except String WorkflowDiffResponse
  briefingText : List WorkflowDigest → List WorkflowDigest → Nat → Int →
    List CrossWorkflowCorrelation → String

/-- api.ts 715-730: listWorkflows. A zero limit is falsy in JavaScript, so no
limit parameter is sent at all; an empty status string would likewise be
dropped. -/
def listWorkflows (env : DigestEnv) (limit : Option Int) (status : Option String) :
    ListWorkflowsResponse :=
  { workflows :=
      env.httpListWorkflows
        (match limit with
         | some n => if n ≠ 0 then some n else none
         | none => none)
        (match status with
         | some st => if st.isEmpty then none else some st
         | none => none) }

/-- The two awaited fetches inside the per-workflow try block
(api.ts 1402-1409). -/
def processFetch (env : DigestEnv) (since : Int) (verbose : Bool) (workflow : Workflow) :
    Except String (WorkflowTimelineResponse × WorkflowDiffResponse) := do
  let timeline ← env.timeline workflow.id
  let diff ← env.diff workflow.id since (if verbose then 10 else 3)
  pure (timeline, diff)

/-- api.ts 1497-1510: the catch branch digest. -/
def errorDigestOf (workflow : Workflow) (msg : String) : WorkflowDigest :=
  { workflow_id := workflow.id, workflow_name := workflow.name,
    status := workflow.status, error := some msg,
    has_changes := false, triggered_condition := false, executions_since := 0,
    change_summary := "Error fetching updates" }

/-- JavaScript execTime := exec.completed_at || exec.started_at (timestamps
are nonempty strings, hence truthy exactly when present). -/
def execTimeOf (ex : WorkflowExecution) : Option Int :=
  match ex.completed_at with
  | some t => some t
  | none => ex.started_at

/-- api.ts 1399-1511: one workflow of the Promise.all fan-out. -/
def processWorkflow (env : DigestEnv) (since : Int) (verbose : Bool)
    (workflow : Workflow) : WorkflowDigest :=
  match processFetch env since verbose workflow with
  | .error e => errorDigestOf workflow e
  | .ok (timeline, diff) =>
      let recentExecutions := timeline.executions.filter fun ex =>
        match execTimeOf ex with
        | some t => decide (since < t)
        | none => false
      let hasChanges := !diff.diffs.isEmpty && diff.diffs.any fun d => d.has_changes
      let triggeredCondition :=
        workflow.status == "completed" &&
          (match workflow.last_execution_at with
           | some t => decide (since < t)
           | none => false)
      let newUrls : Option (List NewUrlSummary) :=
        match diff.latest with
        | some l =>
            match l.state.net_new_urls with
            | some us =>
                some (us.map fun uu =>
                  match uu with
                  | .strUrl s2 => { url := s2 }
                  | .objUrl o => o)
            | none => none
        | none => none
      let signalResult := computeSignalScore
        { diff := diff, workflow := workflow, newUrls := newUrls,
          triggeredCondition := triggeredCondition }
      let digest : WorkflowDigest :=
        { workflow_id := workflow.id, workflow_name := workflow.name,
          workflow_type := workflow.workflow_type, workflow_mode := workflow.mode,
          status := workflow.status,
          has_changes := hasChanges, triggered_condition := triggeredCondition,
          executions_since := recentExecutions.length,
          last_execution_at := workflow.last_execution_at,
          next_execution_at := workflow.next_execution_at,
          change_summary :=
            if hasChanges then generateChangeSummary diff else "No changes detected",
          change_rate := diff.stats.map fun st => st.change_rate,
          new_urls := newUrls,
          signal_score := some signalResult.score,
          signal_level := some signalResult.level,
          signal_reasoning := some signalResult.reasoning }
      if verbose then
        { digest with
            recent_diffs := some (diff.diffs.take 3),
            recent_executions := some (recentExecutions.take 3),
            latest_state := diff.latest.map fun l => l.state }
      else digest

/-- api.ts 1516-1523: the sort comparator (missing scores count as 50,
ties broken by executions_since descending). -/
def digestCompare (a b : WorkflowDigest) : Int :=
  let scoreA := a.signal_score.getD 50
  let scoreB := b.signal_score.getD 50
  if scoreA ≠ scoreB then scoreB - scoreA
  else (b.executions_since : Int) - (a.executions_since : Int)

/-- api.ts 1586-1595: the compact projection. The TypeScript casts an object
holding only these fields to WorkflowDigest; the absent numeric field is
modelled as 0 and absent optional fields as none (they are absent in the
serialized JSON either way). The extra new_urls_count field of the compact
shape has no WorkflowDigest slot and is dropped. -/
def compactOf (w : WorkflowDigest) : WorkflowDigest :=
  { workflow_id := w.workflow_id, workflow_name := w.workflow_name, status := w.status,
    has_changes := w.has_changes, triggered_condition := w.triggered_condition,
    executions_since := 0,
    change_summary := w.change_summary }

/-- api.ts 1365-1604: getWorkflowUpdatesDigest. -/
def getWorkflowUpdatesDigest (env : DigestEnv) (params : DigestParams) :
    WorkflowUpdatesDigestResponse :=
  let since := params.since.getD (env.now - 24 * 60 * 60 * 1000)
  let includeInactive := params.include_inactive.getD false
  let maxWorkflows : Int := min (params.max_workflows.getD 20) 50
  let verbose := params.verbose.getD false
  let format := params.format.getD DigestFormat.json
  let workflows := listWorkflows env (some maxWorkflows)
    (if includeInactive then none else some "active")
  if workflows.workflows.isEmpty then
    { summary := "No workflows found.", since := since, checked_at := env.now,
      total_workflows := 0, workflows_with_changes := 0, triggered_workflows := 0,
      total_executions_since := 0, workflows := [] }
  else
    let workflowDigests := workflows.workflows.map (processWorkflow env since verbose)
    let sortedDigests := jsSortBy digestCompare workflowDigests
    let fc := findCorrelations sortedDigests
    let workflowsWithChanges := (sortedDigests.filter fun w => w.has_changes).length
    let triggeredWorkflowsList := sortedDigests.filter fun w => w.triggered_condition
    let totalExecutions := sortedDigests.foldl (fun acc w => acc + w.executions_since) 0
    let nTriggered := triggeredWorkflowsList.length
    let nAll := sortedDigests.length
    let summary :=
      (if 0 < nTriggered then
        s!"🎯 {nTriggered} workflow(s) triggered their stop condition! " else "")
      ++ (if 0 < workflowsWithChanges then
        s!"📊 {workflowsWithChanges}/{nAll} workflows have new changes. " else "")
      ++ (if 0 < totalExecutions then
        s!"⚡ {totalExecutions} total executions since {since}." else "")
    let summary :=
      if summary.isEmpty then
        s!"✓ All quiet. {nAll} workflows checked, no changes since {since}."
      else summary
    let baseResponse : WorkflowUpdatesDigestResponse :=
      { summary := summary.trim, since := since, checked_at := env.now,
        total_workflows := sortedDigests.length,
        workflows_with_changes := workflowsWithChanges,
        triggered_workflows := triggeredWorkflowsList.length,
        total_executions_since := totalExecutions,
        workflows := sortedDigests,
        correlations := if fc.correlations.isEmpty then none else some fc.correlations,
        correlation_metadata := some fc.metadata }
    match format with
    | .json => baseResponse
    | .briefing | .briefing_llm =>
        { baseResponse with
            formatted_output := some (env.briefingText sortedDigests triggeredWorkflowsList
              workflowsWithChanges since fc.correlations) }
    | .compact =>
        { baseResponse with
            workflows := sortedDigests.map compactOf,
            formatted_output :=
              some s!"Compact: {workflowsWithChanges} changes across {nAll} workflows" }

/-! ## Sorting lemmas for the JS comparator model -/

theorem jsInsert_perm {α : Type} (cmp : α → α → Int) (a : α) :
    ∀ l : List α, List.Perm (jsInsert cmp a l) (a :: l)
  | [] => List.Perm.refl _
  | b :: bs => by
      unfold jsInsert
      by_cases h : cmp a b < 0
      · rw [if_pos h]
      · rw [if_neg h]
        exact ((jsInsert_perm cmp a bs).cons b).trans (List.Perm.swap a b bs)

theorem jsSortBy_perm {α : Type} (cmp : α → α → Int) :
    ∀ l : List α, List.Perm (jsSortBy cmp l) l
  | [] => List.Perm.refl _
  | a :: as =>
      (jsInsert_perm cmp a (jsSortBy cmp as)).trans ((jsSortBy_perm cmp as).cons a)

theorem jsSortBy_length {α : Type} (cmp : α → α → Int) (l : List α) :
    (jsSortBy cmp l).length = l.length :=
  (jsSortBy_perm cmp l).length_eq

theorem mem_jsSortBy {α : Type} (cmp : α → α → Int) (l : List α) (x : α) :
    x ∈ jsSortBy cmp l ↔ x ∈ l :=
  (jsSortBy_perm cmp l).mem_iff

theorem jsInsert_pairwise {α : Type} (cmp : α → α → Int)
    (hanti : ∀ a b, cmp b a = -(cmp a b))
    (htrans : ∀ a b c, cmp a b ≤ 0 → cmp b c ≤ 0 → cmp a c ≤ 0) (a : α) :
    ∀ l : List α, List.Pairwise (fun x y => cmp x y ≤ 0) l →
      List.Pairwise (fun x y => cmp x y ≤ 0) (jsInsert cmp a l)
  | [], _ => by simp [jsInsert]
  | b :: bs, hp => by
      unfold jsInsert
      rcases List.pairwise_cons.mp hp with ⟨hb, hbs⟩
      by_cases h : cmp a b < 0
      · rw [if_pos h]
        refine List.pairwise_cons.mpr ⟨?_, hp⟩
        intro x hx
        rcases List.mem_cons.mp hx with rfl | hx
        · exact le_of_lt h
        · exact htrans a b x (le_of_lt h) (hb x hx)
      · rw [if_neg h]
        have hba : cmp b a ≤ 0 := by
          have := hanti a b
          omega
        refine List.pairwise_cons.mpr ⟨?_, jsInsert_pairwise cmp hanti htrans a bs hbs⟩
        intro x hx
        rcases List.mem_cons.mp ((jsInsert_perm cmp a bs).mem_iff.mp hx) with rfl | hx
        · exact hba
        · exact hb x hx

theorem jsSortBy_pairwise {α : Type} (cmp : α → α → Int)
    (hanti : ∀ a b, cmp b a = -(cmp a b))
    (htrans : ∀ a b c, cmp a b ≤ 0 → cmp b c ≤ 0 → cmp a c ≤ 0) :
    ∀ l : List α, List.Pairwise (fun x y => cmp x y ≤ 0) (jsSortBy cmp l)
  | [] => List.Pairwise.nil
  | a :: as =>
      jsInsert_pairwise cmp hanti htrans a (jsSortBy cmp as)
        (jsSortBy_pairwise cmp hanti htrans as)

theorem pairwise_of_total {α : Type} (R : α → α → Prop) (h : ∀ a b, R a b) :
    ∀ l : List α, List.Pairwise R l
  | [] => List.Pairwise.nil
  | a :: as => List.pairwise_cons.mpr ⟨fun b _ => h a b, pairwise_of_total R h as⟩

theorem digestCompare_le_iff (a b : WorkflowDigest) :
    digestCompare a b ≤ 0 ↔
      (b.signal_score.getD 50 < a.signal_score.getD 50 ∨
        (a.signal_score.getD 50 = b.signal_score.getD 50 ∧
          b.executions_since ≤ a.executions_since)) := by
  unfold digestCompare
  by_cases h : a.signal_score.getD 50 ≠ b.signal_score.getD 50
  · rw [if_pos h]
    constructor
    · intro hle
      left
      omega
    · intro hor
      rcases hor with hlt | ⟨heq, _⟩
      · omega
      · exact absurd heq h
  · rw [if_neg h]
    push_neg at h
    constructor
    · intro hle
      right
      exact ⟨h, by omega⟩
    · intro hor
      rcases hor with hlt | ⟨_, hle⟩
      · omega
      · omega

theorem digestCompare_anti (a b : WorkflowDigest) :
    digestCompare b a = -(digestCompare a b) := by
  unfold digestCompare
  by_cases h : a.signal_score.getD 50 = b.signal_score.getD 50
  · rw [if_neg (fun hc => hc h.symm), if_neg (fun hc => hc h)]
    omega
  · rw [if_pos (fun hc => h hc.symm), if_pos h]
    omega

theorem digestCompare_trans (a b c : WorkflowDigest)
    (h1 : digestCompare a b ≤ 0) (h2 : digestCompare b c ≤ 0) :
    digestCompare a c ≤ 0 := by
  rw [digestCompare_le_iff] at h1 h2 ⊢
  omega

/-! ## Claims -/

/-- C1: For every polling run of searchWithPolling in which at least one
snapshot was successfully observed (the initial submission response always
counts as observed, since the model starts the fold from it), if the
wall-clock budget elapses before all requested feature predicates are
satisfied — that is, the run ends in the timedOut exit, which in the code is
the plain return of lastSuccessfulJob at api.ts 347, not a thrown error —
then the returned snapshot is the last successfully observed one: the fold of
the successful fetches of the processed trace prefix over the initial
response. The embedding has no timeout-error exit at all, mirroring the code,
whose only throw is the jobFailed ApiError. -/
theorem c1_timeout_returns_last_observed (p : PollParams)
    (initialResult : SearchJobResponse)
    (trace : List (Nat × Option SearchJobResponse)) (j : SearchJobResponse)
    (h : searchWithPolling p initialResult trace = .timedOut j) :
    ∃ n, j = lastObserved initialResult (trace.take n) := by
  unfold searchWithPolling at h
  by_cases hneed : (p.generate_summary || p.extract_metadata) = true
  · rw [if_pos hneed] at h
    exact pollLoop_timedOut p _ trace initialResult j h
  · rw [if_neg hneed] at h
    cases h

theorem c1_witness :
    searchWithPolling { generate_summary := true, timeout_ms := some 1000 }
        { search_job_id := "j0", status := "pending" }
        [(0, some { search_job_id := "j0", status := "running" }), (2000, none)]
      = .timedOut { search_job_id := "j0", status := "running" }
    ∧ ∃ n, ({ search_job_id := "j0", status := "running" } : SearchJobResponse)
        = lastObserved { search_job_id := "j0", status := "pending" }
            (([((0 : Nat), some ({ search_job_id := "j0", status := "running" }
                : SearchJobResponse)), (2000, none)]).take n) :=
  ⟨by decide,
   c1_timeout_returns_last_observed { generate_summary := true, timeout_ms := some 1000 }
     { search_job_id := "j0", status := "pending" }
     [(0, some { search_job_id := "j0", status := "running" }), (2000, none)]
     { search_job_id := "j0", status := "running" } (by decide)⟩

/-- C9 counterexample: the claim, as stated, includes every legacy string
summary, but an empty legacy string is falsy in JavaScript, so the
truthiness test on job.summary fails and the poller keeps polling instead of
returning that snapshot: here the first fetched snapshot has summary ""
and top-level status "running", yet the run continues and completes with the
second, different snapshot. -/
theorem c9_counterexample :
    searchWithPolling { generate_summary := true }
        { search_job_id := "q", status := "pending" }
        [(0, some { search_job_id := "q", status := "running", summary := .strVal "" }),
         (1, some { search_job_id := "q", status := "running", summary := .strVal "done" })]
      = .completedJob { search_job_id := "q", status := "running", summary := .strVal "done" }
    ∧ ({ search_job_id := "q", status := "running", summary := .strVal "done" }
        : SearchJobResponse)
      ≠ { search_job_id := "q", status := "running", summary := .strVal "" }
    ∧ ({ search_job_id := "q", status := "running", summary := .strVal "" }
        : SearchJobResponse).summary = .strVal ""
    ∧ ({ search_job_id := "q", status := "running", summary := .strVal "" }
        : SearchJobResponse).status ≠ "failed" := by
  refine ⟨by decide, by decide, rfl, by decide⟩

/-- C9 (amended): a requested async feature counts as complete when its
sub-status is failed, not only completed: if a snapshot is successfully
fetched within budget whose top-level status is not failed, whose summary is
an object with status failed (or a NONEMPTY legacy string — an empty legacy
string is falsy and keeps the poller waiting), and whose metadata_status is
completed or failed when metadata was requested, the poller returns that
snapshot as a successful result instead of raising an error or continuing to
poll. -/
theorem c9_failed_substatus_counts_complete (p : PollParams) (maxDuration t : Nat)
    (last job : SearchJobResponse) (rest : List (Nat × Option SearchJobResponse))
    (hgen : p.generate_summary = true)
    (ht : t < maxDuration)
    (hstatus : job.status ≠ "failed")
    (hsum : (∃ o, job.summary = .objVal o ∧ o.status = "failed") ∨
      (∃ s2, job.summary = .strVal s2 ∧ s2.isEmpty = false))
    (hmeta : p.extract_metadata = true →
      metaStatus job = some "completed" ∨ metaStatus job = some "failed") :
    pollLoop p maxDuration last ((t, some job) :: rest) = .completedJob job := by
  have hsd : summaryDone p job = true := by
    unfold summaryDone
    rw [if_pos hgen]
    rcases hsum with ⟨o, ho, hos⟩ | ⟨s2, hs2, hne⟩
    · rw [ho]
      simp [ho, hos]
    · rw [hs2]
      simp [hne]
  have hmd : metadataDone p job = true := by
    unfold metadataDone
    cases hext : p.extract_metadata with
    | false => simp
    | true =>
        rcases hmeta hext with hm | hm <;> simp [hm]
  simp [pollLoop, ht, hstatus, hsd, hmd]

def jobQ0 : SearchJobResponse :=
  { search_job_id := "q0", status := "completed",
    summary := .objVal { status := "failed" },
    query_interpretation := some { metadata_status := some "failed" } }

theorem c9_witness :
    pollLoop { generate_summary := true, extract_metadata := true } 60000
        { search_job_id := "q0", status := "pending" }
        [(500, some jobQ0)]
      = .completedJob jobQ0 := by
  refine c9_failed_substatus_counts_complete
    { generate_summary := true, extract_metadata := true } 60000 500
    { search_job_id := "q0", status := "pending" } jobQ0
    [] rfl (by decide) (by decide) ?_ ?_
  · exact Or.inl ⟨{ status := "failed" }, rfl, rfl⟩
  · intro _
    right
    rfl

/-- C3: computeSignalScore always returns a score clamped into [0, 100], and
the returned level is exactly the fixed-threshold function (80 urgent, 60
notable, 40 routine, below noise) of the returned score. -/
theorem c3_signal_score_range_and_level (ctx : SignalScoringContext) :
    0 ≤ (computeSignalScore ctx).score ∧ (computeSignalScore ctx).score ≤ 100
    ∧ (computeSignalScore ctx).level = levelOfScore (computeSignalScore ctx).score := by
  refine ⟨?_, ?_, ?_⟩
  · exact le_max_left 0 _
  · exact max_le (by norm_num) (min_le_left _ _)
  · rfl

/-- C2: per-workflow failure isolation in the digest fan-out. The map over the
workflow list always yields one digest per workflow (the aggregation is a
total function — it cannot throw); a workflow whose fetches raise is mapped
to the catch-branch digest, which carries the error message, has_changes
false and executions_since 0; and the digest of every other workflow is a
function of that workflow's own fetches alone, hence unchanged in any
environment that agrees on the non-failing workflows (the failure never
aborts or perturbs the rest of the aggregation). -/
theorem c2_per_workflow_error_isolated (env env2 : DigestEnv) (since : Int)
    (verbose : Bool) (ws : List Workflow) (w : Workflow) (e : String)
    (hfail : processFetch env since verbose w = .error e)
    (hagree : ∀ v : Workflow, v.id ≠ w.id →
      processFetch env since verbose v = processFetch env2 since verbose v) :
    (ws.map (processWorkflow env since verbose)).length = ws.length
    ∧ processWorkflow env since verbose w = errorDigestOf w e
    ∧ (errorDigestOf w e).error = some e
    ∧ (errorDigestOf w e).has_changes = false
    ∧ (errorDigestOf w e).executions_since = 0
    ∧ ∀ v : Workflow, v.id ≠ w.id →
        processWorkflow env since verbose v = processWorkflow env2 since verbose v := by
  refine ⟨by simp, ?_, rfl, rfl, rfl, ?_⟩
  · unfold processWorkflow
    rw [hfail]
  · intro v hv
    unfold processWorkflow
    rw [hagree v hv]

def envC2A : DigestEnv :=
  { now := 0,
    httpListWorkflows := fun _ _ => [],
    timeline := fun id => if id = "bad" then .error "boom" else .ok {},
    diff := fun _ _ _ => .ok {},
    briefingText := fun _ _ _ _ _ => "" }

/-- envC2A with the failing fetch repaired: identical on every other id. -/
def envC2B : DigestEnv :=
  { now := 0,
    httpListWorkflows := fun _ _ => [],
    timeline := fun id => if id = "bad" then .ok {} else .ok {},
    diff := fun _ _ _ => .ok {},
    briefingText := fun _ _ _ _ _ => "" }

def wfBad : Workflow := { id := "bad" }
def wfGood : Workflow := { id := "good" }

theorem c2_witness :
    processWorkflow envC2A 0 false wfBad = errorDigestOf wfBad "boom"
    ∧ (errorDigestOf wfBad "boom").error = some "boom"
    ∧ (errorDigestOf wfBad "boom").has_changes = false
    ∧ (errorDigestOf wfBad "boom").executions_since = 0
    ∧ processWorkflow envC2A 0 false wfGood = processWorkflow envC2B 0 false wfGood := by
  have h := c2_per_workflow_error_isolated envC2A envC2B 0 false [wfGood, wfBad] wfBad
    "boom" (by rfl)
    (by
      intro v hv
      have hv' : ¬(v.id = "bad") := hv
      simp [processFetch, envC2A, envC2B, hv'])
  exact ⟨h.2.1, h.2.2.1, h.2.2.2.1, h.2.2.2.2.1, h.2.2.2.2.2 wfGood (by decide)⟩

def digestA : WorkflowDigest :=
  { workflow_id := "A", workflow_name := "A", has_changes := true,
    triggered_condition := false, executions_since := 0, change_summary := "x",
    new_urls := some [{ url := "http://a.com" }, { url := "https://a.com" }] }

def digestB : WorkflowDigest :=
  { workflow_id := "B", workflow_name := "B", has_changes := true,
    triggered_condition := false, executions_since := 0, change_summary := "x",
    new_urls := some [{ url := "https://b.org/x" }] }

/-- C4 counterexample: with two eligible digests, workflow A alone
contributing both http://a.com and https://a.com (the same normalized URL
twice), findCorrelations emits exactly one correlation whose two
contributing entries carry the single distinct workflow id A — the claim
that every emitted correlation has at least two DISTINCT contributing
workflow ids, and that a single workflow contributing the same normalized
URL twice does not suffice, is false on the code. -/
theorem c4_counterexample :
    (findCorrelations [digestA, digestB]).correlations.length = 1
    ∧ ((findCorrelations [digestA, digestB]).correlations.map
        (fun c => (c.workflows.map fun r => r.workflow_id).dedup.length)) = [1]
    ∧ ((findCorrelations [digestA, digestB]).correlations.map
        fun c => c.workflows.length) = [2] := by
  refine ⟨by decide, by decide, by decide⟩

/-- C4 (amended): every correlation emitted by findCorrelations has at least
two contributing (digest, url) entries — the code compares the bucket length
against 2, not the number of distinct workflow ids, so one workflow that
contributed the same normalized URL twice suffices. -/
theorem c4_correlations_have_two_entries (digests : List WorkflowDigest)
    (c : CrossWorkflowCorrelation)
    (hc : c ∈ (findCorrelations digests).correlations) :
    2 ≤ c.workflows.length := by
  simp only [findCorrelations] at hc
  split at hc
  · simp at hc
  · rcases (mem_jsSortBy _ _ _).mp hc with hmem
    rcases List.mem_map.mp hmem with ⟨kv, hkv, hceq⟩
    have hlen : 2 ≤ kv.2.length := of_decide_eq_true (List.mem_filter.mp hkv).2
    rw [← hceq]
    simpa using hlen

def corrAA : CrossWorkflowCorrelation :=
  { type := "shared_url", value := "https://a.com/",
    workflows := [{ workflow_id := "A", workflow_name := "A", context := "" },
      { workflow_id := "A", workflow_name := "A", context := "" }],
    insight := "Appears in 2 monitors: A, A" }

theorem c4_witness : 2 ≤ corrAA.workflows.length :=
  c4_correlations_have_two_entries [digestA, digestB] corrAA (by decide)

/-- C5 counterexample: the claim fails on the code in two ways. First,
utm_id matches utm_* but is not in the fixed deletion list, so it survives
normalization; second, the scheme of an opaque non-special URL (mailto:) is
not forced to https, because the WHATWG protocol setter refuses to switch a
non-special scheme to a special one (and a file URL with an empty host is
likewise left on file). -/
theorem c5_counterexample :
    normalizeUrl "https://a.com/?utm_id=5" = "https://a.com/?utm_id=5"
    ∧ ("https://a.com/?utm_id=5" : String) ≠ "https://a.com/"
    ∧ normalizeUrl "mailto:bob@x.com" = "mailto:bob@x.com"
    ∧ normalizeUrl "file:///a/" = "file:///a" := by
  refine ⟨by decide, by decide, by decide, by decide⟩

/-- C5 (amended): for every parseable input, the normalized output is the
serialization of a record that reparses exactly, whose scheme is forced to
https precisely when the original scheme is special and not a file URL with
an empty host, whose fragment is stripped, whose query has exactly the
eleven fixed tracking parameters (utm_source, utm_medium, utm_campaign,
utm_term, utm_content, ref, source, fbclid, gclid, mc_cid, mc_eid) removed
(the query disappearing when emptied), and whose path loses one trailing
slash unless it is exactly the root or the URL has an opaque path; host and
port are untouched. Every unparseable input is returned verbatim — the
function never throws. -/
theorem c5_normalize_characterized (s : String) :
    (parseUrl s.toList = none → normalizeUrl s = s)
    ∧ ∀ u, parseUrl s.toList = some u →
        normalizeUrl s = String.mk (serializeUrl (normRec u))
        ∧ parseUrl (normalizeUrl s).toList = some (normRec u)
        ∧ (normRec u).scheme =
            (if u.scheme ∈ specialSchemes ∧ ¬(u.scheme = fileL ∧ u.host = [])
              then httpsL else u.scheme)
        ∧ (normRec u).fragment = none
        ∧ (∀ ps qs, u.query = some qs → (normRec u).query = some ps →
            ps = qs.filter fun p => p.name ∉ trackingParams)
        ∧ (∀ ps, (normRec u).query = some ps → ∀ p ∈ ps, p.name ∉ trackingParams)
        ∧ (u.query = none → (normRec u).query = none)
        ∧ (normRec u).path =
            (if u.cannotBeBase = false ∧ pathEndsSlash u.path ∧ u.path ≠ ['/']
              then u.path.dropLast else u.path)
        ∧ (normRec u).host = u.host ∧ (normRec u).port = u.port
        ∧ (normRec u).cannotBeBase = u.cannotBeBase := by
  constructor
  · intro h
    unfold normalizeUrl
    rw [h]
  · intro u hu
    have hnorm : normalizeUrl s = String.mk (serializeUrl (normRec u)) := by
      unfold normalizeUrl
      rw [hu]
    have hcanon := normRec_canonical u (parse_canonical _ u hu)
    refine ⟨hnorm, ?_, rfl, rfl, ?_, ?_, ?_, rfl, rfl, rfl, rfl⟩
    · rw [hnorm]
      exact parse_serialize (normRec u) hcanon
    · intro ps qs hq hps
      rw [normRec_query, hq] at hps
      simp only at hps
      by_cases hemp : (qs.filter fun p => p.name ∉ trackingParams).isEmpty
      · rw [if_pos hemp] at hps
        cases hps
      · rw [if_neg hemp] at hps
        exact (Option.some.inj hps).symm
    · intro ps hps p hp
      rw [normRec_query] at hps
      cases hq : u.query with
      | none => rw [hq] at hps; cases hps
      | some qs =>
          rw [hq] at hps
          simp only at hps
          by_cases hemp : (qs.filter fun p => p.name ∉ trackingParams).isEmpty
          · rw [if_pos hemp] at hps
            cases hps
          · rw [if_neg hemp] at hps
            have := (Option.some.inj hps)
            subst this
            have := (List.mem_filter.mp hp).2
            simpa using this
    · intro hq
      rw [normRec_query, hq]

theorem c5_witness :
    parseUrl ("not a url".toList) = none ∧ normalizeUrl "not a url" = "not a url" :=
  ⟨by decide, (c5_normalize_characterized "not a url").1 (by decide)⟩

/-- C6 counterexample: normalization strips only ONE trailing slash per
application, so an input whose path ends in two slashes is not a fixed point
after one pass: normalize("https://x.com/a//") = "https://x.com/a/" but
normalizing again gives "https://x.com/a" — idempotence fails for this
input. -/
theorem c6_counterexample :
    normalizeUrl "https://x.com/a//" = "https://x.com/a/"
    ∧ normalizeUrl "https://x.com/a/" = "https://x.com/a"
    ∧ normalizeUrl (normalizeUrl "https://x.com/a//") ≠ normalizeUrl "https://x.com/a//" := by
  refine ⟨by decide, by decide, by decide⟩

/-- C6 (amended): normalization is idempotent on every unparseable input and
on every parseable input whose once-normalized path is not itself still
strippable (that is, does not still end in a slash while being longer than
the root on a non-opaque URL) — equivalently, on every input whose path does
not end in two or more slashes. The counterexample input
https://x.com/a// is exactly the excluded case. -/
theorem c6_normalize_idempotent (s : String)
    (hstab : ∀ u, parseUrl s.toList = some u →
      ¬((normRec u).cannotBeBase = false ∧ pathEndsSlash (normRec u).path ∧
        (normRec u).path ≠ ['/'])) :
    normalizeUrl (normalizeUrl s) = normalizeUrl s := by
  cases hp : parseUrl s.toList with
  | none =>
      have h1 : normalizeUrl s = s := by
        unfold normalizeUrl
        rw [hp]
      rw [h1, h1]
  | some u =>
      have hcanon := parse_canonical _ u hp
      have hvcanon := normRec_canonical u hcanon
      have h1 : normalizeUrl s = String.mk (serializeUrl (normRec u)) := by
        unfold normalizeUrl
        rw [hp]
      have h3 : parseUrl (normalizeUrl s).toList = some (normRec u) := by
        rw [h1]
        exact parse_serialize (normRec u) hvcanon
      have h4 : normalizeUrl (normalizeUrl s)
          = String.mk (serializeUrl (normRec (normRec u))) := by
        rw [show normalizeUrl (normalizeUrl s)
            = (match parseUrl (normalizeUrl s).toList with
               | none => normalizeUrl s
               | some v => String.mk (serializeUrl (normRec v))) from rfl, h3]
      rw [h4, normRec_idem u (hstab u hp), ← h1]

def urlB0 : UrlRec :=
  { scheme := "https".toList, cannotBeBase := false, host := "a.com".toList,
    port := none, path := "/b/".toList,
    query := some [{ name := "utm_source".toList, value := "x".toList }],
    fragment := none }

theorem c6_witness :
    normalizeUrl (normalizeUrl "https://a.com/b/?utm_source=x")
      = normalizeUrl "https://a.com/b/?utm_source=x" := by
  refine c6_normalize_idempotent "https://a.com/b/?utm_source=x" ?_
  intro u hu
  have he : urlB0 = u :=
    Option.some.inj ((by decide :
      parseUrl ("https://a.com/b/?utm_source=x".toList) = some urlB0).symm.trans hu)
  rw [← he]
  decide

/-- The change-summary rules as the (amended) claim states them, in the
claim order: the zero-change-rate fast path (which, per the amendment, also
requires a positive total execution count), then the no-entries fallback
"No changes", then the no-changes-in-latest-entry case, then the typed
tally, then the collaborator free text, then "No changes". -/
def changeSummarySpec (diff : WorkflowDiffResponse) : String :=
  if (match diff.stats with
      | some st => decide (st.change_rate = 0 ∧ 0 < diff.total_executions)
      | none => false) = true then
    "No changes detected"
  else
    match diff.diffs with
    | [] => "No changes"
    | latestDiff :: _ =>
        if latestDiff.has_changes = false || latestDiff.changes.isEmpty then
          "No changes detected"
        else
          let nAdded := latestDiff.changes.countP fun c => c.change_type == ChangeType.added
          let nRemoved := latestDiff.changes.countP fun c => c.change_type == ChangeType.removed
          let nInc := latestDiff.changes.countP fun c => c.change_type == ChangeType.increase
          let nDec := latestDiff.changes.countP fun c => c.change_type == ChangeType.decrease
          let nStatus := latestDiff.changes.countP fun c => c.change_type == ChangeType.status_change
          let nText := latestDiff.changes.countP fun c => c.change_type == ChangeType.text_change
          let nMod := nStatus + nText
          let parts : List String :=
            (if nAdded ≠ 0 then [s!"+{nAdded} added"] else [])
            ++ (if nRemoved ≠ 0 then [s!"-{nRemoved} removed"] else [])
            ++ (if nInc ≠ 0 then [s!"↑{nInc} increased"] else [])
            ++ (if nDec ≠ 0 then [s!"↓{nDec} decreased"] else [])
            ++ (if nStatus ≠ 0 ∨ nText ≠ 0 then [s!"~{nMod} modified"] else [])
          if parts.isEmpty then
            match latestDiff.summary with
            | some s2 => if s2.isEmpty then "No changes" else s2
            | none => "No changes"
          else String.intercalate ", " parts

/-- C7 counterexample: with a known change rate of exactly zero but a zero
total execution count and no diff entries, the zero-rate fast path is
skipped (the code also requires total_executions > 0) and the summary is
"No changes", not the "No changes detected" the claim promises whenever the
change rate is known and zero. -/
theorem c7_counterexample :
    (({ total_executions := 0,
        stats := some { change_rate := 0 } } : WorkflowDiffResponse).stats.map
      fun st => st.change_rate) = some 0
    ∧ generateChangeSummary
        { total_executions := 0, stats := some { change_rate := 0 } } = "No changes"
    ∧ ("No changes" : String) ≠ "No changes detected" := by
  refine ⟨rfl, rfl, by decide⟩

/-- C7 (amended): the derived change summary follows the claimed rules with
the zero-change-rate fast path additionally conditioned on a positive total
execution count, and with the empty-diff-list case yielding "No changes":
generateChangeSummary agrees with the rule-by-rule specification function on
every input. -/
theorem c7_change_summary_follows_rules (diff : WorkflowDiffResponse) :
    generateChangeSummary diff = changeSummarySpec diff := by
  unfold generateChangeSummary changeSummarySpec
  cases hs : diff.stats with
  | none => simp
  | some st =>
      by_cases h1 : st.change_rate = 0
      · by_cases h2 : 0 < diff.total_executions
        · simp [h1, h2]
        · simp [h1, h2]
      · simp [h1]

/-- The digest response always carries exactly one digest per listed
workflow, whatever the output format. -/
theorem getWorkflowUpdatesDigest_length (env : DigestEnv) (params : DigestParams) :
    (getWorkflowUpdatesDigest env params).workflows.length =
      (listWorkflows env (some (min (params.max_workflows.getD 20) 50))
        (if params.include_inactive.getD false then none else some "active")).workflows.length := by
  simp only [getWorkflowUpdatesDigest]
  by_cases h : (listWorkflows env (some (min (params.max_workflows.getD 20) 50))
      (if params.include_inactive.getD false then none else some "active")).workflows.isEmpty = true
  · simp only [h, if_true]
    rw [List.isEmpty_iff.mp h]
    rfl
  · simp only [h, if_false]
    cases hf : params.format.getD DigestFormat.json <;>
      simp [hf, jsSortBy_length, List.length_map]

/-- C8 counterexample: with max_workflows = 0 the cap computes to 0, which is
falsy in JavaScript, so listWorkflows sends NO limit parameter at all; a
collaborator that honours every limit it is actually sent (returning at most
n workflows for a sent limit n) may still return a workflow for the
unlimited request, and the response then contains 1 > min(0, 50) = 0
digests — the claim fails at max_workflows = 0. -/
def envC8 : DigestEnv :=
  { now := 0,
    httpListWorkflows := fun lim _ => match lim with | none => [{ id := "w1" }] | some _ => [],
    timeline := fun _ => .error "e",
    diff := fun _ _ _ => .error "e",
    briefingText := fun _ _ _ _ _ => "" }

theorem c8_counterexample :
    ((getWorkflowUpdatesDigest envC8 { max_workflows := some 0 }).workflows.length : Int) = 1
    ∧ ¬(((getWorkflowUpdatesDigest envC8
          { max_workflows := some 0 }).workflows.length : Int)
        ≤ min ((some (0 : Int)).getD 20) 50)
    ∧ ∀ (n : Int) (st : Option String), 1 ≤ n →
        ((envC8.httpListWorkflows (some n) st).length : Int) ≤ n := by
  refine ⟨by decide, by decide, ?_⟩
  intro n st h
  simp [envC8]
  omega

/-- C8 (amended): for every call with max_workflows omitted or at least 1 —
excluding the zero (and negative) values, where the falsy-limit bug drops
the limit parameter — and assuming the listing collaborator returns at most
n workflows when a limit n ≥ 1 is sent, the number of digests in the
response never exceeds min(max_workflows ?? 20, 50). -/
theorem c8_digest_count_bounded (env : DigestEnv) (params : DigestParams)
    (hlist : ∀ (n : Int) (st : Option String), 1 ≤ n →
      ((env.httpListWorkflows (some n) st).length : Int) ≤ n)
    (hmw : params.max_workflows = none ∨ ∃ k, params.max_workflows = some k ∧ 1 ≤ k) :
    ((getWorkflowUpdatesDigest env params).workflows.length : Int) ≤
      min (params.max_workflows.getD 20) 50 := by
  have hpos : 1 ≤ min (params.max_workflows.getD 20) 50 := by
    rcases hmw with h | ⟨k, hk, h1⟩
    · rw [h]
      decide
    · rw [hk]
      simp only [Option.getD_some]
      omega
  have hne : min (params.max_workflows.getD 20) 50 ≠ 0 := by omega
  have hsent : (listWorkflows env (some (min (params.max_workflows.getD 20) 50))
        (if params.include_inactive.getD false then none
          else some "active")).workflows
      = env.httpListWorkflows (some (min (params.max_workflows.getD 20) 50))
        (match (if params.include_inactive.getD false then none else some "active") with
          | some s2 => if s2.isEmpty then none else some s2
          | none => none) := by
    unfold listWorkflows
    simp [hne]
  rw [getWorkflowUpdatesDigest_length, hsent]
  exact hlist _ _ hpos

theorem c8_witness :
    ((getWorkflowUpdatesDigest envC8 { max_workflows := some 5 }).workflows.length : Int) ≤
      min ((some (5 : Int)).getD 20) 50 :=
  c8_digest_count_bounded envC8 { max_workflows := some 5 }
    (fun n st h => by
      simp [envC8]
      omega)
    (Or.inr ⟨5, rfl, by omega⟩)

/-- The response digest list is empty, a comparator-sorted list, or the
compact projection of a comparator-sorted list. -/
theorem getWorkflowUpdatesDigest_workflows_shape (env : DigestEnv)
    (params : DigestParams) :
    (getWorkflowUpdatesDigest env params).workflows = []
    ∨ (∃ l, (getWorkflowUpdatesDigest env params).workflows = jsSortBy digestCompare l)
    ∨ (∃ l, (getWorkflowUpdatesDigest env params).workflows
        = (jsSortBy digestCompare l).map compactOf) := by
  simp only [getWorkflowUpdatesDigest]
  by_cases h : (listWorkflows env (some (min (params.max_workflows.getD 20) 50))
      (if params.include_inactive.getD false then none else some "active")).workflows.isEmpty = true
  · simp [h]
  · simp only [h, if_false]
    cases hf : params.format.getD DigestFormat.json with
    | json =>
        right; left
        exact ⟨List.map (processWorkflow env (params.since.getD (env.now - 24 * 60 * 60 * 1000)) (params.verbose.getD false)) (listWorkflows env (some (min (params.max_workflows.getD 20) 50)) (if params.include_inactive.getD false then none else some "active")).workflows, by simp [hf]⟩
    | briefing =>
        right; left
        exact ⟨List.map (processWorkflow env (params.since.getD (env.now - 24 * 60 * 60 * 1000)) (params.verbose.getD false)) (listWorkflows env (some (min (params.max_workflows.getD 20) 50)) (if params.include_inactive.getD false then none else some "active")).workflows, by simp [hf]⟩
    | briefing_llm =>
        right; left
        exact ⟨List.map (processWorkflow env (params.since.getD (env.now - 24 * 60 * 60 * 1000)) (params.verbose.getD false)) (listWorkflows env (some (min (params.max_workflows.getD 20) 50)) (if params.include_inactive.getD false then none else some "active")).workflows, by simp [hf]⟩
    | compact =>
        right; right
        exact ⟨List.map (processWorkflow env (params.since.getD (env.now - 24 * 60 * 60 * 1000)) (params.verbose.getD false)) (listWorkflows env (some (min (params.max_workflows.getD 20) 50)) (if params.include_inactive.getD false then none else some "active")).workflows, by simp [hf]⟩

/-- C10: in the final ordering of getWorkflowUpdatesDigest a digest with no
signal_score — in particular every error digest from the catch branch — is
compared as having score exactly 50 (signal_score ?? 50): the response list
is pairwise ordered by that effective score descending, with
executions_since descending breaking exact ties. -/
theorem c10_missing_score_sorts_as_fifty (env : DigestEnv) (params : DigestParams) :
    List.Pairwise
      (fun a b : WorkflowDigest =>
        b.signal_score.getD 50 < a.signal_score.getD 50 ∨
          (a.signal_score.getD 50 = b.signal_score.getD 50 ∧
            b.executions_since ≤ a.executions_since))
      (getWorkflowUpdatesDigest env params).workflows
    ∧ (∀ w msg, (errorDigestOf w msg).signal_score = none)
    ∧ (∀ d : WorkflowDigest, d.signal_score = none → d.signal_score.getD 50 = 50) := by
  refine ⟨?_, fun w msg => rfl, fun d hd => by rw [hd]; rfl⟩
  have hsort : ∀ l : List WorkflowDigest,
      List.Pairwise
        (fun a b : WorkflowDigest =>
          b.signal_score.getD 50 < a.signal_score.getD 50 ∨
            (a.signal_score.getD 50 = b.signal_score.getD 50 ∧
              b.executions_since ≤ a.executions_since))
        (jsSortBy digestCompare l) := by
    intro l
    exact (jsSortBy_pairwise digestCompare digestCompare_anti digestCompare_trans l).imp
      fun h => (digestCompare_le_iff _ _).mp h
  rcases getWorkflowUpdatesDigest_workflows_shape env params with h | ⟨l, h⟩ | ⟨l, h⟩
  · rw [h]
    exact List.Pairwise.nil
  · rw [h]
    exact hsort l
  · rw [h]
    refine List.pairwise_map.mpr ?_
    exact pairwise_of_total _ (fun a b => Or.inr ⟨rfl, le_refl 0⟩) _

end Zipfai
